import Mathlib

/-!
Verification development for the Popcorn Linux compiler core:
the loop path enumerator (`EnumerateLoopPaths`, LoopPaths.cpp) and the
state-capture instrumentation pass (`InsertStackMaps`, InsertStackMaps.cpp).

The embedding is shallow: basic blocks are numbered `Nat`s, an instruction
is a pair `(block, index)`, and the external collaborators (the migration
point classifier, the liveness and dominance providers, the slot tracker)
are oracle functions supplied as parameters, exactly as the passes consume
them.  Recursive C++ traversals become fuel-indexed Lean functions that
return `none` when the fuel runs out; every theorem is conditioned on the
traversal returning a result, and witnesses use concrete fuel.
-/

/-- An instruction: `(basic block id, index within the block)`. -/

abbrev Inst := Nat × Nat

/-- A node of a loop path: a basic block together with the flag telling
whether the block belongs to a (opaque) sub-loop.  Mirrors the
`PathNode` pairs built by `loopDFS` via `emplace_back(BB, false/true)`. -/

structure PathNode where
  block : Nat
  isSubLoopExit : Bool
deriving DecidableEq, Repr

/-- A path enumerated inside a loop.  Mirrors `LoopPath` (LoopPaths.cpp
lines 424-436): the node sequence, the start and end instructions and the
two flags.  The C++ constructor inserts the node vector into a set; since
the DFS only ever passes block-distinct node vectors (a repeat aborts the
analysis), keeping the vector itself is faithful. -/

structure LoopPath where
  Nodes : List PathNode
  Start : Inst
  End : Inst
  StartsAtHeader : Bool
  EndsAtBackedge : Bool
deriving DecidableEq, Repr

/-- Per-loop analysis context for `loopDFS`.  `blockLen`, `succs` and
`isEqPoint` describe the CFG and the external equivalence point classifier
(`Popcorn::isEquivalencePoint`, an oracle per the spec); `contains`,
`header`, `latches`, `subLoopBlocks` and `subLoopContains` are the
`CurLoop`/`Latches`/`SubLoopBlocks`/`LI->getLoopFor` views stored by
`analyzeLoop`; `subSuccs` packages `getSubLoopSuccessors` (the
`(EqPoint, Spanning)` exit-terminator lists computed from previously
analyzed sub-loop summaries); `maxNumPaths` is the `-max-num-paths`
option (default 10000). -/

structure LoopCtx where
  blockLen : Nat → Nat
  succs : Nat → List Nat
  isEqPoint : Inst → Bool
  contains : Nat → Bool
  header : Nat
  latches : List Nat
  subLoopBlocks : Nat → Bool
  subLoopContains : Nat → Nat → Bool
  subSuccs : Nat → List Inst × List Inst
  maxNumPaths : Nat

/-- The terminator of a block: its last instruction. -/

def blockTerm (ctx : LoopCtx) (b : Nat) : Inst := (b, ctx.blockLen b - 1)

/-- `Instruction::isTerminator`: the instruction is the last of its block. -/

def isTerm (ctx : LoopCtx) (i : Inst) : Bool :=
  decide (i.2 = ctx.blockLen i.1 - 1)

/-- Scan `k` instructions of block `b` starting at index `i` for an
equivalence point. -/

def findEqFrom (ctx : LoopCtx) (b : Nat) : Nat → Nat → Option Inst
  | _, 0 => none
  | i, k + 1 => if ctx.isEqPoint (b, i) then some (b, i) else findEqFrom ctx b (i + 1) k

/-- `hasEquivalencePoint` (LoopPaths.cpp lines 486-492): search from `I`
to the end of its block for an equivalence point. -/

def hasEquivalencePoint (ctx : LoopCtx) (I : Inst) : Option Inst :=
  findEqFrom ctx I.1 I.2 (ctx.blockLen I.1 - I.2)

/-- `pushIfNotPresent` (lines 498-501): append to the work list unless
already queued. -/

def pushIfNotPresent (I : Inst) (l : List Inst) : List Inst :=
  if I ∈ l then l else l ++ [I]

/-- `pushIfNotPresent` folded over a list of new starts. -/

def pushAllIfNotPresent (is : List Inst) (l : List Inst) : List Inst :=
  is.foldl (fun acc i => pushIfNotPresent i acc) l

/-- `pathContains` (lines 504-509): does the current path visit block `BB`? -/

def pathContains (nodes : List PathNode) (BB : Nat) : Bool :=
  nodes.any (fun n => decide (n.block = BB))

/-- Insert a block into the set of blocks marked `true` in a per-loop
`DenseMap<BasicBlock*, bool>` summary. -/

def insertBlock (b : Nat) (s : List Nat) : List Nat :=
  if b ∈ s then s else s ++ [b]

/-- `HasSpPath[CurLoop][PathBlock] = true` / `HasEqPointPath[...] = true`
executed for every non-sub-loop block on the current path. -/

def markAll (subB : Nat → Bool) (nodes : List PathNode) (s : List Nat) : List Nat :=
  nodes.foldl (fun acc n => if subB n.block then acc else insertBlock n.block acc) s

/-- The mutable state threaded through `loopDFS`: the DFS node stack
(`DFSI.PathNodes`), the paths recorded so far (`CurPaths`), the queued new
search starts (`NewPaths`), the current loop's two per-block summary maps,
and the two whole-function failure flags. -/

structure DFSState where
  PathNodes : List PathNode
  CurPaths : List LoopPath
  NewPaths : List Inst
  HasSpPath : List Nat
  HasEqPointPath : List Nat
  DetectedCycle : Bool
  TooManyPaths : Bool
deriving DecidableEq, Repr

/-- The truncated-path emission loop (`for SLE : EqPointInsts` at
LoopPaths.cpp lines 633-651 and 678-693): for each equivalence-point
sub-loop exit, record a path stopping at the end of the current block
`BB`, check the path ceiling, and queue the exit as a new start. -/

def dfsTruncList (ctx : LoopCtx) (Start : Inst) (SAH : Bool) (BB : Nat) :
    List Inst → DFSState → Option (Bool × DFSState)
  | [], s => some (true, s)
  | SLE :: rest, s =>
    let p : LoopPath := ⟨s.PathNodes, Start, blockTerm ctx BB, SAH, false⟩
    let s1 := { s with CurPaths := s.CurPaths ++ [p] }
    if s1.CurPaths.length > ctx.maxNumPaths then
      some (false, { s1 with TooManyPaths := true })
    else
      dfsTruncList ctx Start SAH BB rest
        { s1 with NewPaths := pushIfNotPresent SLE s1.NewPaths }

mutual

/-- `EnumerateLoopPaths::loopDFS` (LoopPaths.cpp lines 545-702), with
`DFSI.Start` and `DFSI.StartsAtHeader` passed as the fixed arguments
`Start` and `SAH` and `DFSI.PathNodes` threaded inside the state.  The
`Nat` argument is fuel; `none` means the fuel ran out. -/
def loopDFS (ctx : LoopCtx) (Start : Inst) (SAH : Bool) :
    Nat → Inst → DFSState → Option (Bool × DFSState)
  | 0, _, _ => none
  | fuel + 1, I, s =>
    let BB := I.1
    if ctx.subLoopBlocks BB = false then
      if pathContains s.PathNodes BB then
        some (false, { s with DetectedCycle := true })
      else
        let s1 := { s with PathNodes := s.PathNodes ++ [⟨BB, false⟩] }
        match hasEquivalencePoint ctx I with
        | some eqP =>
          let p : LoopPath := ⟨s1.PathNodes, Start, eqP, SAH, false⟩
          let s2 := { s1 with CurPaths := s1.CurPaths ++ [p] }
          if s2.CurPaths.length > ctx.maxNumPaths then
            some (false, { s2 with TooManyPaths := true })
          else
            let s3 := { s2 with
              HasEqPointPath := markAll ctx.subLoopBlocks s2.PathNodes s2.HasEqPointPath }
            let next :=
              if isTerm ctx eqP = false then
                some (true, { s3 with
                  NewPaths := pushIfNotPresent (eqP.1, eqP.2 + 1) s3.NewPaths })
              else
                dfsEqSuccs ctx Start SAH fuel (ctx.succs BB) s3
            match next with
            | none => none
            | some (false, s4) => some (false, s4)
            | some (true, s4) => some (true, { s4 with PathNodes := s4.PathNodes.dropLast })
        | none =>
          if BB ∈ ctx.latches then
            let p : LoopPath := ⟨s1.PathNodes, Start, blockTerm ctx BB, SAH, true⟩
            let s2 := { s1 with CurPaths := s1.CurPaths ++ [p] }
            if s2.CurPaths.length > ctx.maxNumPaths then
              some (false, { s2 with TooManyPaths := true })
            else if SAH then
              some (true, { s2 with
                HasSpPath := markAll ctx.subLoopBlocks s2.PathNodes s2.HasSpPath,
                PathNodes := s2.PathNodes.dropLast })
            else
              some (true, { s2 with
                HasEqPointPath := markAll ctx.subLoopBlocks s2.PathNodes s2.HasEqPointPath,
                PathNodes := s2.PathNodes.dropLast })
          else
            match dfsElseSuccs ctx Start SAH fuel BB (ctx.succs BB) s1 with
            | none => none
            | some (false, s2) => some (false, s2)
            | some (true, s2) => some (true, { s2 with PathNodes := s2.PathNodes.dropLast })
    else
      if pathContains s.PathNodes BB then
        some (false, { s with DetectedCycle := true })
      else
        let s1 := { s with PathNodes := s.PathNodes ++ [⟨BB, true⟩] }
        match dfsSubSuccs ctx Start SAH fuel BB (ctx.succs BB) s1 with
        | none => none
        | some (false, s2) => some (false, s2)
        | some (true, s2) => some (true, { s2 with PathNodes := s2.PathNodes.dropLast })

/-- The successor loop in the equivalence-point branch when the point is
its block's terminator (lines 582-593): skip exits and the header; queue
first instructions of plain in-loop successors; for sub-loop successors
queue the eq-point exits and continue the DFS through the spanning exits. -/
def dfsEqSuccs (ctx : LoopCtx) (Start : Inst) (SAH : Bool) :
    Nat → List Nat → DFSState → Option (Bool × DFSState)
  | 0, _, _ => none
  | _ + 1, [], s => some (true, s)
  | fuel + 1, succ :: rest, s =>
    if ctx.contains succ = false ∨ succ = ctx.header then
      dfsEqSuccs ctx Start SAH fuel rest s
    else if ctx.subLoopBlocks succ = false then
      dfsEqSuccs ctx Start SAH fuel rest
        { s with NewPaths := pushIfNotPresent (succ, 0) s.NewPaths }
    else
      let s1 := { s with NewPaths := pushAllIfNotPresent (ctx.subSuccs succ).1 s.NewPaths }
      match dfsSpanList ctx Start SAH fuel (ctx.subSuccs succ).2 s1 with
      | none => none
      | some (false, s2) => some (false, s2)
      | some (true, s2) => dfsEqSuccs ctx Start SAH fuel rest s2

/-- The recursion over the spanning-path sub-loop exits
(`for SLE : SpanningInsts`, lines 590-591, 652-653, 694-695). -/
def dfsSpanList (ctx : LoopCtx) (Start : Inst) (SAH : Bool) :
    Nat → List Inst → DFSState → Option (Bool × DFSState)
  | 0, _, _ => none
  | _ + 1, [], s => some (true, s)
  | fuel + 1, SLE :: rest, s =>
    match loopDFS ctx Start SAH fuel SLE s with
    | none => none
    | some (false, s1) => some (false, s1)
    | some (true, s1) => dfsSpanList ctx Start SAH fuel rest s1

/-- The successor loop of the ordinary (no equivalence point, not a latch)
branch (lines 624-655): descend into plain in-loop successors; for
sub-loop successors emit truncated paths for eq-point exits and recurse
through spanning exits. -/
def dfsElseSuccs (ctx : LoopCtx) (Start : Inst) (SAH : Bool) :
    Nat → Nat → List Nat → DFSState → Option (Bool × DFSState)
  | 0, _, _, _ => none
  | _ + 1, _, [], s => some (true, s)
  | fuel + 1, BB, succ :: rest, s =>
    if ctx.contains succ = false then
      dfsElseSuccs ctx Start SAH fuel BB rest s
    else if ctx.subLoopBlocks succ = false then
      match loopDFS ctx Start SAH fuel (succ, 0) s with
      | none => none
      | some (false, s1) => some (false, s1)
      | some (true, s1) => dfsElseSuccs ctx Start SAH fuel BB rest s1
    else
      match dfsTruncList ctx Start SAH BB (ctx.subSuccs succ).1 s with
      | none => none
      | some (false, s1) => some (false, s1)
      | some (true, s1) =>
        match dfsSpanList ctx Start SAH fuel (ctx.subSuccs succ).2 s1 with
        | none => none
        | some (false, s2) => some (false, s2)
        | some (true, s2) => dfsElseSuccs ctx Start SAH fuel BB rest s2

/-- The successor loop when the current block lies inside a sub-loop
(lines 669-697): only successors outside that sub-loop but inside the
current loop are explored. -/
def dfsSubSuccs (ctx : LoopCtx) (Start : Inst) (SAH : Bool) :
    Nat → Nat → List Nat → DFSState → Option (Bool × DFSState)
  | 0, _, _, _ => none
  | _ + 1, _, [], s => some (true, s)
  | fuel + 1, BB, succ :: rest, s =>
    if ctx.subLoopContains BB succ = true ∨ ctx.contains succ = false then
      dfsSubSuccs ctx Start SAH fuel BB rest s
    else if ctx.subLoopBlocks succ = false then
      match loopDFS ctx Start SAH fuel (succ, 0) s with
      | none => none
      | some (false, s1) => some (false, s1)
      | some (true, s1) => dfsSubSuccs ctx Start SAH fuel BB rest s1
    else
      match dfsTruncList ctx Start SAH BB (ctx.subSuccs succ).1 s with
      | none => none
      | some (false, s1) => some (false, s1)
      | some (true, s1) =>
        match dfsSpanList ctx Start SAH fuel (ctx.subSuccs succ).2 s1 with
        | none => none
        | some (false, s2) => some (false, s2)
        | some (true, s2) => dfsSubSuccs ctx Start SAH fuel BB rest s2

end

/-- The drain loop of `analyzeLoop` (lines 738-744): pop queued starts and
search each with `StartsAtHeader = false` until the queue is empty. -/

def drainNewPaths (ctx : LoopCtx) : Nat → DFSState → Option (Bool × DFSState)
  | 0, _ => none
  | fuel + 1, s =>
    match s.NewPaths with
    | [] => some (true, s)
    | st :: rest =>
      match loopDFS ctx st false (fuel + 1) st { s with NewPaths := rest } with
      | none => none
      | some (false, s1) => some (false, s1)
      | some (true, s1) => drainNewPaths ctx fuel s1

/-- `EnumerateLoopPaths::analyzeLoop` (lines 704-747) for one loop whose
context has been set up: clear the per-loop results, search from the
header's first instruction with `StartsAtHeader = true`, then drain the
queue of equivalence-point starts.  `tmp`/`dc` carry the incoming
whole-function failure flags. -/

def analyzeLoop (ctx : LoopCtx) (fuel : Nat) (tmp dc : Bool) :
    Option (Bool × DFSState) :=
  let h : Inst := (ctx.header, 0)
  let s0 : DFSState := ⟨[], [], [], [], [], dc, tmp⟩
  match loopDFS ctx h true fuel h s0 with
  | none => none
  | some (false, s) => some (false, s)
  | some (true, s) => drainNewPaths ctx fuel s

/-- A whole function's CFG and loop forest, as the pass reads them from
the external `LoopInfo` collaborator: member blocks, header, latches,
immediate sub-loops, nesting depth and the innermost loop of each block.
`maxNumPaths` is the `-max-num-paths` option (default 10000). -/

structure FuncModel where
  blockLen : Nat → Nat
  succs : Nat → List Nat
  isEqPoint : Inst → Bool
  loopIds : List Nat
  loopBlocks : Nat → List Nat
  loopHeader : Nat → Nat
  loopLatches : Nat → List Nat
  subLoops : Nat → List Nat
  loopDepth : Nat → Nat
  loopFor : Nat → Option Nat
  maxNumPaths : Nat

/-- Breadth-first traversal used by `LoopPathUtilities::populateLoopNest`
(lines 396-410): visit a queue of loops, inserting each loop's immediate
sub-loops into the nest (deduplicated) and into the queue. -/

def bfsNest (fm : FuncModel) : Nat → List Nat → List Nat → List Nat
  | 0, _, acc => acc
  | _ + 1, [], acc => acc
  | fuel + 1, l :: queue, acc =>
    bfsNest fm fuel (queue ++ fm.subLoops l)
      ((fm.subLoops l).foldl (fun a s => if s ∈ a then a else a ++ [s]) acc)

/-- `populateLoopNest(L)`: the nest rooted at `L` (the loop itself plus
all transitive sub-loops, in breadth-first order). -/

def nestOf (fm : FuncModel) (fuel : Nat) (L : Nat) : List Nat :=
  bfsNest fm fuel [L] [L]

/-- `LoopPathUtilities::getSubBlocks` (lines 412-422): all blocks of all
loops nested (at any depth) inside `L`'s immediate sub-loops. -/

def getSubBlocks (fm : FuncModel) (fuel : Nat) (L : Nat) : List Nat :=
  (fm.subLoops L).foldl (fun acc sub =>
    (nestOf fm fuel sub).foldl (fun a n =>
      (fm.loopBlocks n).foldl (fun a2 b => if b ∈ a2 then a2 else a2 ++ [b]) a) acc) []

/-- Association-list lookup with the `DenseMap::operator[]` default (an
absent key reads as the empty/false map). -/

def lookupList (m : List (Nat × List α)) (k : Nat) : List α :=
  match m.find? (fun e => decide (e.1 = k)) with
  | some e => e.2
  | none => []

/-- `Loop::getExitingBlocks`: the member blocks with a successor outside
the loop. -/

def exitingBlocks (fm : FuncModel) (sub : Nat) : List Nat :=
  (fm.loopBlocks sub).filter (fun b =>
    (fm.succs b).any (fun t => decide (t ∉ fm.loopBlocks sub)))

/-- Function-level analysis state: the per-loop results maps
(`Paths`, `HasSpPath`, `HasEqPointPath`) and the two failure flags. -/

structure FuncState where
  Paths : List (Nat × List LoopPath)
  HasSpPath : List (Nat × List Nat)
  HasEqPointPath : List (Nat × List Nat)
  TooManyPaths : Bool
  DetectedCycle : Bool
deriving DecidableEq, Repr

/-- Update an association-list entry (creating it if absent), as storing
into `Paths[L]` / `HasSpPath[L]` does. -/

def assocSet (m : List (Nat × List α)) (k : Nat) (v : List α) : List (Nat × List α) :=
  if m.any (fun e => decide (e.1 = k)) then
    m.map (fun e => if e.1 = k then (k, v) else e)
  else m ++ [(k, v)]

/-- Build the `LoopCtx` that `analyzeLoop` stores for loop `L` (lines
723-731), with `getSubLoopSuccessors` (lines 513-533) reading the
already-computed sub-loop summaries out of the function state: for each
exiting block of the successor's innermost loop, its terminator goes to
the spanning list if `HasSpPath[SubLoop][Exit]` and to the eq-point list
if `HasEqPointPath[SubLoop][Exit]`. -/

def mkLoopCtx (fm : FuncModel) (st : FuncState) (fuel : Nat) (L : Nat) : LoopCtx where
  blockLen := fm.blockLen
  succs := fm.succs
  isEqPoint := fm.isEqPoint
  contains := fun b => decide (b ∈ fm.loopBlocks L)
  header := fm.loopHeader L
  latches := fm.loopLatches L
  subLoopBlocks := fun b => decide (b ∈ getSubBlocks fm fuel L)
  subLoopContains := fun b s =>
    match fm.loopFor b with
    | some l => decide (s ∈ fm.loopBlocks l)
    | none => false
  subSuccs := fun succ =>
    match fm.loopFor succ with
    | some sub =>
      let exits := exitingBlocks fm sub
      ((exits.filter (fun e => e ∈ lookupList st.HasEqPointPath sub)).map
         (fun e => (e, fm.blockLen e - 1)),
       (exits.filter (fun e => e ∈ lookupList st.HasSpPath sub)).map
         (fun e => (e, fm.blockLen e - 1)))
    | none => ([], [])
  maxNumPaths := fm.maxNumPaths

/-- `EnumerateLoopPaths::analysisFailed`.  Modelled from the spec: the
accessor lives in the missing LoopPaths.h header; per spec section 7 the
analysis failed iff a cycle was detected or the path ceiling was
exceeded, matching its uses at lines 776-788. -/

def analysisFailed (st : FuncState) : Bool :=
  st.TooManyPaths || st.DetectedCycle

/-- `EnumerateLoopPaths::reset`.  Modelled from the spec: the method is
declared in the missing LoopPaths.h header; per spec sections 4.1 and 7
a failed analysis discards every loop's paths and per-block summaries
(fail-closed), so `reset` clears the three result maps. -/

def resetEnum (st : FuncState) : FuncState :=
  { st with Paths := [], HasSpPath := [], HasEqPointPath := [] }

/-- The per-nest loop of `runOnFunction` (lines 770-774): analyze each
loop of the nest in order, storing its paths and summaries (partial
results included, as `Paths[L]` is filled through a reference), and stop
at the first failure. -/

def runNestLoops (fm : FuncModel) (fuel : Nat) : List Nat → FuncState → Option FuncState
  | [], st => some st
  | L :: rest, st =>
    let ctx := mkLoopCtx fm st fuel L
    match analyzeLoop ctx fuel st.TooManyPaths st.DetectedCycle with
    | none => none
    | some (ok, ds) =>
      let st1 : FuncState :=
        { Paths := assocSet st.Paths L ds.CurPaths,
          HasSpPath := assocSet st.HasSpPath L ds.HasSpPath,
          HasEqPointPath := assocSet st.HasEqPointPath L ds.HasEqPointPath,
          TooManyPaths := ds.TooManyPaths,
          DetectedCycle := ds.DetectedCycle }
      if ok then runNestLoops fm fuel rest st1 else some st1

/-- The outer loop of `runOnFunction` (lines 766-777): process each nest,
stopping as soon as `analysisFailed()` holds. -/

def runNests (fm : FuncModel) (fuel : Nat) : List (List Nat) → FuncState → Option FuncState
  | [], st => some st
  | n :: rest, st =>
    match runNestLoops fm fuel n st with
    | none => none
    | some st1 =>
      if analysisFailed st1 then some st1 else runNests fm fuel rest st1

/-- `EnumerateLoopPaths::runOnFunction` (lines 749-790): reset, build one
nest per top-level loop, analyze the nests, and on failure (`TooManyPaths`
or `DetectedCycle`) discard every loop's results via `reset()`. -/

def runOnFunction (fm : FuncModel) (fuel : Nat) : Option FuncState :=
  let nests := (fm.loopIds.filter (fun L => decide (fm.loopDepth L = 1))).map
    (fun L => nestOf fm fuel L)
  match runNests fm fuel nests ⟨[], [], [], false, false⟩ with
  | none => none
  | some st =>
    let st1 := if st.TooManyPaths then resetEnum st else st
    let st2 := if st1.DetectedCycle then resetEnum st1 else st1
    some st2

/-! ### Invariants of the loop path enumerator -/

/-- The blocks visited by a path, in order. -/

def blocksOf (p : LoopPath) : List Nat := p.Nodes.map PathNode.block

/-- Well-formedness of a recorded path: non-empty, block-distinct, and
every node's sub-loop flag agrees with the loop context. -/

def PathWF (ctx : LoopCtx) (p : LoopPath) : Prop :=
  p.Nodes ≠ [] ∧ (blocksOf p).Nodup ∧
  ∀ n ∈ p.Nodes, n.isSubLoopExit = ctx.subLoopBlocks n.block

/-- The path was recorded by the latch branch: it ends with a latch block
whose terminator is the end instruction, and `EndsAtBackedge` is set. -/

def endsAtLatch (ctx : LoopCtx) (p : LoopPath) : Prop :=
  ∃ n, p.Nodes.getLast? = some n ∧ n.block ∈ ctx.latches ∧
    n.isSubLoopExit = false ∧ p.End = blockTerm ctx n.block ∧
    p.EndsAtBackedge = true

/-- The path was recorded by the equivalence-point branch: its end
instruction is an equivalence point inside its final (non-sub-loop)
block, and `EndsAtBackedge` is clear. -/

def endsAtEqPoint (ctx : LoopCtx) (p : LoopPath) : Prop :=
  ∃ n, p.Nodes.getLast? = some n ∧ n.isSubLoopExit = false ∧
    p.End.1 = n.block ∧ ctx.isEqPoint p.End = true ∧
    p.EndsAtBackedge = false

/-- The path was truncated at a sub-loop boundary (LoopPaths.cpp lines
633-651 / 678-693): it stops at its final block's terminator, which is
not an equivalence point of the current loop's search (either the final
block is opaque, or the classifier rejects the terminator), because some
in-loop successor lies in a sub-loop with an eq-point-reaching exit. -/

def truncAtSubLoop (ctx : LoopCtx) (p : LoopPath) : Prop :=
  ∃ n, p.Nodes.getLast? = some n ∧ p.End = blockTerm ctx n.block ∧
    p.EndsAtBackedge = false ∧
    (n.isSubLoopExit = true ∨ ctx.isEqPoint p.End = false) ∧
    ∃ succ ∈ ctx.succs n.block, ctx.contains succ = true ∧
      ctx.subLoopBlocks succ = true ∧ (ctx.subSuccs succ).1 ≠ []

/-- Classification of every recorded path. -/

def GoodPath (ctx : LoopCtx) (p : LoopPath) : Prop :=
  PathWF ctx p ∧ (endsAtLatch ctx p ∨ endsAtEqPoint ctx p ∨ truncAtSubLoop ctx p)

/-- `p` witnesses `HasSpPath[b]`: a header-started backedge-ending path
through the non-opaque block `b`. -/

def SpEvidence (ctx : LoopCtx) (p : LoopPath) (b : Nat) : Prop :=
  p.StartsAtHeader = true ∧ p.EndsAtBackedge = true ∧
  b ∈ blocksOf p ∧ ctx.subLoopBlocks b = false

/-- `p` witnesses `HasEqPointPath[b]`: a path through the non-opaque
block `b` that either ends at an equivalence point, or is a point-started
path that reached a backedge. -/

def EqEvidence (ctx : LoopCtx) (p : LoopPath) (b : Nat) : Prop :=
  (endsAtEqPoint ctx p ∨ (p.StartsAtHeader = false ∧ p.EndsAtBackedge = true)) ∧
  b ∈ blocksOf p ∧ ctx.subLoopBlocks b = false

/-- The DFS state invariant: every recorded path is classified, and the
two per-block summary sets hold exactly the blocks witnessed by some
recorded path. -/

def INV (ctx : LoopCtx) (s : DFSState) : Prop :=
  (∀ p ∈ s.CurPaths, GoodPath ctx p) ∧
  (∀ b, b ∈ s.HasSpPath ↔ ∃ p ∈ s.CurPaths, SpEvidence ctx p b) ∧
  (∀ b, b ∈ s.HasEqPointPath ↔ ∃ p ∈ s.CurPaths, EqEvidence ctx p b)

/-- An instruction index is in range for its block. -/

def ValidI (ctx : LoopCtx) (i : Inst) : Prop := i.2 < ctx.blockLen i.1

/-- Well-formedness of a loop context: blocks are non-empty (every LLVM
basic block ends with a terminator) and the sub-loop exit lists produced
from sub-loop summaries consist of in-range instructions. -/

def CtxOK (ctx : LoopCtx) : Prop :=
  (∀ b, 0 < ctx.blockLen b) ∧
  (∀ sc, ∀ i ∈ (ctx.subSuccs sc).1, ValidI ctx i) ∧
  (∀ sc, ∀ i ∈ (ctx.subSuccs sc).2, ValidI ctx i)

/-- Precondition on a DFS state: a well-formed block-distinct node stack,
in-range queued starts, and the invariant. -/

def StateOK (ctx : LoopCtx) (s : DFSState) : Prop :=
  (∀ n ∈ s.PathNodes, n.isSubLoopExit = ctx.subLoopBlocks n.block) ∧
  (s.PathNodes.map PathNode.block).Nodup ∧
  (∀ i ∈ s.NewPaths, ValidI ctx i) ∧
  INV ctx s

/-- Success contract of `loopDFS` at a given fuel: from a well-formed
state and an in-range instruction, a successful search restores the node
stack and preserves the invariant. -/

def LoopDFSGood (ctx : LoopCtx) (fuel : Nat) : Prop :=
  ∀ Start SAH I s r s', ValidI ctx I → StateOK ctx s →
    loopDFS ctx Start SAH fuel I s = some (r, s') → r = true →
    s'.PathNodes = s.PathNodes ∧ StateOK ctx s'

/-- Success contract of the spanning-exit recursion. -/

def SpanGood (ctx : LoopCtx) (fuel : Nat) : Prop :=
  ∀ Start SAH l s r s', (∀ i ∈ l, ValidI ctx i) → StateOK ctx s →
    dfsSpanList ctx Start SAH fuel l s = some (r, s') → r = true →
    s'.PathNodes = s.PathNodes ∧ StateOK ctx s'

/-- Success contract of the equivalence-point successor loop. -/

def EqSuccsGood (ctx : LoopCtx) (fuel : Nat) : Prop :=
  ∀ Start SAH l s r s', StateOK ctx s →
    dfsEqSuccs ctx Start SAH fuel l s = some (r, s') → r = true →
    s'.PathNodes = s.PathNodes ∧ StateOK ctx s'

/-- Success contract of the ordinary-branch successor loop: the current
block `BB` sits non-opaque at the top of the node stack and carries no
equivalence point at its terminator. -/

def ElseGood (ctx : LoopCtx) (fuel : Nat) : Prop :=
  ∀ Start SAH BB l s r s' n, StateOK ctx s →
    s.PathNodes.getLast? = some n → n.block = BB → n.isSubLoopExit = false →
    ctx.isEqPoint (blockTerm ctx BB) = false →
    (∀ x ∈ l, x ∈ ctx.succs BB) →
    dfsElseSuccs ctx Start SAH fuel BB l s = some (r, s') → r = true →
    s'.PathNodes = s.PathNodes ∧ StateOK ctx s'

/-- Success contract of the sub-loop-block successor loop: the current
block `BB` sits opaque at the top of the node stack. -/

def SubGood (ctx : LoopCtx) (fuel : Nat) : Prop :=
  ∀ Start SAH BB l s r s' n, StateOK ctx s →
    s.PathNodes.getLast? = some n → n.block = BB → n.isSubLoopExit = true →
    (∀ x ∈ l, x ∈ ctx.succs BB) →
    dfsSubSuccs ctx Start SAH fuel BB l s = some (r, s') → r = true →
    s'.PathNodes = s.PathNodes ∧ StateOK ctx s'

/-- Concrete loop used to exercise the truncation behavior: header `0`,
opaque sub-loop block `1` whose summary reports an eq-point exit, latch
`2`; no instruction is an equivalence point of the outer search. -/

def ctxC2 : LoopCtx where
  blockLen := fun _ => 1
  succs := fun b => if b = 0 then [1] else if b = 1 then [2] else if b = 2 then [0] else []
  isEqPoint := fun _ => false
  contains := fun b => decide (b ≤ 2)
  header := 0
  latches := [2]
  subLoopBlocks := fun b => decide (b = 1)
  subLoopContains := fun b s => decide (b = 1 ∧ s = 1)
  subSuccs := fun sc => if sc = 1 then ([((1, 0) : Inst)], []) else ([], [])
  maxNumPaths := 10000

/-- Concrete loop with an equivalence point mid-header: header `0` with
two instructions (the first an equivalence point), latch `1`. -/

def ctxC3 : LoopCtx where
  blockLen := fun b => if b = 0 then 2 else 1
  succs := fun b => if b = 0 then [1] else if b = 1 then [0] else []
  isEqPoint := fun i => decide (i = ((0, 0) : Inst))
  contains := fun b => decide (b = 0 ∨ b = 1)
  header := 0
  latches := [1]
  subLoopBlocks := fun _ => false
  subLoopContains := fun _ _ => false
  subSuccs := fun _ => ([], [])
  maxNumPaths := 10000

/-- Concrete loop whose block `1` carries an equivalence point at its
terminator and whose only successor `2` is a latch: header `0`,
`0 → 1 → 2 → 0`. -/

def ctxC4 : LoopCtx where
  blockLen := fun _ => 1
  succs := fun b => if b = 0 then [1] else if b = 1 then [2] else if b = 2 then [0] else []
  isEqPoint := fun i => decide (i = ((1, 0) : Inst))
  contains := fun b => decide (b ≤ 2)
  header := 0
  latches := [2]
  subLoopBlocks := fun _ => false
  subLoopContains := fun _ _ => false
  subSuccs := fun _ => ([], [])
  maxNumPaths := 10000

/-- Concrete function containing one loop `{0,1,2,3}` (header `0`,
latch `3`) with an inner cycle `1 → 2 → 1` not passing through the
header, so the path search revisits an on-stack block. -/

def fmC1 : FuncModel where
  blockLen := fun _ => 1
  succs := fun b =>
    if b = 0 then [1] else if b = 1 then [2]
    else if b = 2 then [1, 3] else if b = 3 then [0] else []
  isEqPoint := fun _ => false
  loopIds := [7]
  loopBlocks := fun L => if L = 7 then [0, 1, 2, 3] else []
  loopHeader := fun _ => 0
  loopLatches := fun L => if L = 7 then [3] else []
  subLoops := fun _ => []
  loopDepth := fun L => if L = 7 then 1 else 0
  loopFor := fun b => if b ≤ 3 then some 7 else none
  maxNumPaths := 10000

/-- A value reference: the result of an instruction, a routine argument,
or any other value (constants, globals). -/

inductive Val where
  | inst (n : Nat)
  | arg (n : Nat)
  | other (n : Nat)
deriving DecidableEq, Repr

/-- An argument of an inserted stackmap call: the signed 64-bit call
site id, the signed 32-bit flags word, or a live value reference. -/

inductive MarkerArg where
  | idArg (n : Nat)
  | flagArg (n : Nat)
  | valArg (v : Val)
deriving DecidableEq, Repr

/-- An instruction of the instrumented module.  `isCallSite` embeds the
`Popcorn::isCallSite` classification.  Modelled from the spec: that
helper lives in the missing PopcornUtil sources; per spec section 4.2
the pass walks the routine's call sites, and the markers the pass itself
emits are not classified as call sites (otherwise the walk would
re-instrument its own markers).  `isCallInst`/`callee` support the
`dyn_cast<CallInst>`/`getCalledFunction()->getName()` test of
`removeOldStackmaps`; `hides` embeds the `hidesValues` classification
(extract/insert element or value, getelementptr, bitcast); `callArgs`
records the arguments of inserted stackmap calls. -/

structure Instr where
  iid : Nat
  isCallSite : Bool
  isInvoke : Bool
  isCallInst : Bool
  callee : Option String
  hides : Bool
  operands : List Val
  callArgs : List MarkerArg
deriving DecidableEq, Repr

/-- A routine: name, declaration flag, and basic blocks of instructions. -/

structure Func where
  fname : String
  isDeclaration : Bool
  blocks : List (List Instr)
deriving DecidableEq, Repr

/-- A module: an ordered list of routines. -/

structure PModule where
  funcs : List Func
deriving DecidableEq, Repr

/-- The external collaborators consumed per module: the liveness
provider (`LiveValues::getLiveValues`), the dominance provider
(`DominatorTree::dominates`, as a relation on instruction ids), and the
name/slot oracles backing `ValueComp` (`Value::hasName`,
`Value::getName`, `ModuleSlotTracker::getLocalSlot`). -/

structure Collab where
  liveAfter : Nat → List Val
  dominates : Nat → Nat → Bool
  hasNameV : Val → Bool
  nameV : Val → String
  localSlot : Val → Int

/-- The stackmap intrinsic's name (`InsertStackMaps::SMName`). -/

def SMName : String := "llvm.experimental.pcn.stackmap"

/-- The `removeOldStackmaps` match: a `CallInst` whose called function
is named `SMName`. -/

def isMarkerCall (i : Instr) : Bool :=
  i.isCallInst && decide (i.callee = some SMName)

/-- First index `≥ k` of a marker call in the block. -/

def findMarkerFrom (l : List Instr) (k : Nat) : Option Nat :=
  match (l.drop k).findIdx? isMarkerCall with
  | some j => some (k + j)
  | none => none

/-- The per-block scan of `removeOldStackmaps` (InsertStackMaps.cpp lines
277-288): erase the first marker call found at or after position `k`,
then — because the loop sets `i = bb->begin()` and the `for` increment
runs — resume scanning from position 1.  Fuel-indexed; the block length
plus one always suffices since each erasure shortens the block. -/

def removeScanF : Nat → List Instr → Nat → List Instr × Bool
  | 0, l, _ => (l, false)
  | f + 1, l, k =>
    match findMarkerFrom l k with
    | none => (l, false)
    | some j => ((removeScanF f (l.eraseIdx j) 1).1, true)

/-- Remove the stale stackmap calls of one block. -/

def removeOldBlock (l : List Instr) : List Instr × Bool :=
  removeScanF (l.length + 1) l 0

/-- Remove the stale stackmap calls of one routine. -/

def removeOldFunc (f : Func) : Func × Bool :=
  let rs := f.blocks.map removeOldBlock
  ({ f with blocks := rs.map Prod.fst }, rs.any Prod.snd)

/-- `InsertStackMaps::removeOldStackmaps` (lines 267-295). -/

def removeOldStackmaps (M : PModule) : PModule × Bool :=
  let rs := M.funcs.map removeOldFunc
  (⟨rs.map Prod.fst⟩, rs.any Prod.snd)

/-- `Module::getFunction(SMName) != nullptr`. -/

def hasSMDecl (M : PModule) : Bool :=
  M.funcs.any (fun f => decide (f.fname = SMName))

/-- The lazily created stackmap declaration. -/

def smDeclFunc : Func := ⟨SMName, true, []⟩

/-- `InsertStackMaps::addSMDeclaration` (lines 252-262): append the
declaration if no function of that name exists; report whether it was
added. -/

def addSMDeclaration (M : PModule) : PModule × Bool :=
  if hasSMDecl M then (M, false) else (⟨M.funcs ++ [smDeclFunc]⟩, true)

/-- `ValueComp` (lines 34-48): named values order lexically by name and
precede unnamed ones; unnamed values order by local slot. -/

def valueLt (c : Collab) (a b : Val) : Bool :=
  if c.hasNameV a && c.hasNameV b then decide (c.nameV a < c.nameV b)
  else if c.hasNameV a then true
  else if c.hasNameV b then false
  else decide (c.localSlot a < c.localSlot b)

/-- `std::set<..., ValueComp>::insert`: ordered insertion that keeps the
existing element when an equivalent one is present. -/

def setInsert (lt : Val → Val → Bool) (x : Val) : List Val → List Val
  | [] => [x]
  | y :: ys =>
    if lt x y then x :: y :: ys
    else if lt y x then y :: setInsert lt x ys
    else y :: ys

/-- The contents of `sortedLive` after inserting every element of `l`. -/

def buildSorted (c : Collab) (l : List Val) : List Val :=
  l.foldl (fun s v => setInsert (valueLt c) v s) []

/-- Operand results of a hiding instruction that come from instructions. -/

def instOperandIds (ops : List Val) : List Nat :=
  ops.filterMap (fun v => match v with | .inst n => some n | _ => none)

/-- Operand results of a hiding instruction that come from arguments. -/

def argOperandIds (ops : List Val) : List Nat :=
  ops.filterMap (fun v => match v with | .arg n => some n | _ => none)

/-- `InsertStackMaps::getHiddenVals` (lines 314-339): every instruction
receives an entry; hiding instructions record their instruction- and
argument-produced operands. -/

def getHiddenVals (f : Func) : List (Nat × List Nat) × List (Nat × List Nat) :=
  let insts := f.blocks.flatten
  (insts.map (fun i => (i.iid, if i.hides then instOperandIds i.operands else [])),
   insts.map (fun i => (i.iid, if i.hides then argOperandIds i.operands else [])))

/-- The hidden values inserted from the instruction hiding map (lines
157-165): include an entry's operands when the hiding instruction
dominates the call and its result is live. -/

def hiddenInstContrib (c : Collab) (hi : List (Nat × List Nat))
    (callId : Nat) (live : List Val) : List Val :=
  hi.foldl (fun acc p =>
    if c.dominates p.1 callId && decide (Val.inst p.1 ∈ live)
    then acc ++ p.2.map Val.inst else acc) []

/-- The hidden values inserted from the argument hiding map (lines
166-173): arguments dominate the whole routine, so only liveness of the
hiding instruction is checked. -/

def hiddenArgContrib (_c : Collab) (ha : List (Nat × List Nat))
    (live : List Val) : List Val :=
  ha.foldl (fun acc p =>
    if decide (Val.inst p.1 ∈ live)
    then acc ++ p.2.map Val.arg else acc) []

/-- Every value inserted into `sortedLive` for one call site, in
insertion order: the direct liveness answer, then the recovered hidden
values. -/

def collectedLive (c : Collab) (hi ha : List (Nat × List Nat))
    (callId : Nat) : List Val :=
  let live := c.liveAfter callId
  live ++ hiddenInstContrib c hi callId live ++ hiddenArgContrib c ha live

/-- The ordered live list emitted for one call site. -/

def sortedLiveFor (c : Collab) (hi ha : List (Nat × List Nat))
    (callId : Nat) : List Val :=
  buildSorted c (collectedLive c hi ha callId)

/-- The marker call built by `builder.CreateCall(SMFunc, args)`: the
signed 64-bit site id, a zero 32-bit flags word, then the live values. -/

def mkMarker (sid : Nat) (live : List Val) : Instr :=
  ⟨0, false, false, true, some SMName, false, [],
    [MarkerArg.idArg sid, MarkerArg.flagArg 0] ++ live.map MarkerArg.valArg⟩

/-- Result of instrumenting one block. -/

structure BlockOut where
  insts : List Instr
  sid : Nat
  count : Nat
  emits : List (Nat × List Val)
deriving DecidableEq, Repr

/-- The per-block call-site walk (lines 131-208): skip invokes with a
diagnostic, otherwise insert a marker directly after the call carrying
the next site id and (unless `-no-live-vals`) the ordered live list. -/

def instrumentBlock (c : Collab) (noLive : Bool)
    (hi ha : List (Nat × List Nat)) : List Instr → Nat → BlockOut
  | [], sid => ⟨[], sid, 0, []⟩
  | i :: rest, sid =>
    if i.isCallSite then
      if i.isInvoke then
        let r := instrumentBlock c noLive hi ha rest sid
        ⟨i :: r.insts, r.sid, r.count, r.emits⟩
      else
        let live := if noLive then [] else sortedLiveFor c hi ha i.iid
        let r := instrumentBlock c noLive hi ha rest (sid + 1)
        ⟨i :: mkMarker sid live :: r.insts, r.sid, r.count + 1, (sid, live) :: r.emits⟩
    else
      let r := instrumentBlock c noLive hi ha rest sid
      ⟨i :: r.insts, r.sid, r.count, r.emits⟩

/-- Result of instrumenting one routine's blocks. -/

structure FuncOut where
  blocks : List (List Instr)
  sid : Nat
  count : Nat
  emits : List (Nat × List Val)
deriving DecidableEq, Repr

/-- Walk a routine's blocks threading the call site id. -/

def instrumentBlocks (c : Collab) (noLive : Bool)
    (hi ha : List (Nat × List Nat)) : List (List Instr) → Nat → FuncOut
  | [], sid => ⟨[], sid, 0, []⟩
  | b :: bs, sid =>
    let r := instrumentBlock c noLive hi ha b sid
    let rs := instrumentBlocks c noLive hi ha bs r.sid
    ⟨r.insts :: rs.blocks, rs.sid, r.count + rs.count, r.emits ++ rs.emits⟩

/-- Instrument one routine: gather the hiding maps, then walk the blocks
with the call site id starting at zero (the id counter is reset per
routine, line 213). -/

def instrumentFunc (c : Collab) (noLive : Bool) (f : Func) :
    Func × Nat × List (Nat × List Val) :=
  let maps := getHiddenVals f
  let r := instrumentBlocks c noLive maps.1 maps.2 f.blocks 0
  ({ f with blocks := r.blocks }, r.count, r.emits)

/-- Result of a whole `runOnModule` invocation. -/

structure ModuleRun where
  module : PModule
  modified : Bool
  numInstrumented : Nat
  emissions : List (String × List (Nat × List Val))
deriving DecidableEq, Repr

/-- `InsertStackMaps::runOnModule` (lines 90-225): add the stackmap
declaration if missing, strip stale stackmaps, instrument every defined
routine, and report modification when the declaration was added, old
stackmaps were removed, or any marker was inserted. -/

def runOnModule (c : Collab) (noLive : Bool) (M : PModule) : ModuleRun :=
  let a := addSMDeclaration M
  let rOld := removeOldStackmaps a.1
  let outs := rOld.1.funcs.map (fun f =>
    if f.isDeclaration then (f, 0, ([] : List (Nat × List Val)))
    else instrumentFunc c noLive f)
  let n := (outs.map (fun o => o.2.1)).foldl (· + ·) 0
  { module := ⟨outs.map (fun o => o.1)⟩,
    modified := a.2 || rOld.2 || decide (0 < n),
    numInstrumented := n,
    emissions := outs.filterMap (fun o =>
      if o.1.isDeclaration then none else some (o.1.fname, o.2.2)) }

/-- Number of marker calls present in a module. -/

def countMarkers (M : PModule) : Nat :=
  (M.funcs.map (fun f => (f.blocks.map (fun b => b.countP isMarkerCall)).foldl (· + ·) 0)).foldl (· + ·) 0

/-- Does the module contain any marker call? -/

def hasMarkerCall (M : PModule) : Bool :=
  M.funcs.any (fun f => f.blocks.any (fun b => b.any isMarkerCall))

/-- The trivial collaborator bundle: no live values, no dominance, no
names, all slots zero. -/

def collabTriv : Collab :=
  ⟨fun _ => [], fun _ _ => false, fun _ => false, fun _ => SMName, fun _ => 0⟩

/-- No marker call anywhere in the module (a module never instrumented,
or already cleaned). -/

def MarkerFree (M : PModule) : Prop :=
  ∀ f ∈ M.funcs, ∀ b ∈ f.blocks, ∀ i ∈ b, isMarkerCall i = false

def instrC8 : Instr :=
  ⟨5, true, false, false, none, false, [], []⟩

def moduleC8 : PModule :=
  ⟨[⟨"f", false, [[instrC8]]⟩]⟩

def collabC9 : Collab :=
  ⟨fun _ => [Val.arg 0], fun _ _ => true, fun _ => false, fun _ => SMName, fun _ => 0⟩

def moduleC9 : PModule :=
  ⟨[⟨"g", false, [[⟨1, true, false, false, none, false, [], []⟩,
                   ⟨2, true, false, false, none, false, [], []⟩]]⟩]⟩

/-- Any two distinct values fed to `sortedLive` are strictly ordered by
`ValueComp` (distinct names, or distinct local slots): the `std::set`
then never conflates two distinct values. -/

def PairwiseComparable (c : Collab) (l : List Val) : Prop :=
  ∀ a ∈ l, ∀ b ∈ l, a = b ∨ valueLt c a b = true ∨ valueLt c b a = true

def collabC10 : Collab :=
  ⟨fun _ => [Val.inst 1, Val.inst 2], fun _ _ => true, fun _ => false,
   fun _ => "", fun v => match v with
     | .inst n => (n : Int) | .arg n => (100 + n : Int) | .other n => (200 + n : Int)⟩

def collabC5 : Collab :=
  ⟨fun _ => [Val.inst 1], fun _ _ => true, fun _ => false, fun _ => "",
   fun v => match v with
     | .inst n => (n : Int) | .arg n => (100 + n : Int) | .other n => (200 + n : Int)⟩

def hiC5 : List (Nat × List Nat) := [(1, [7])]

def haC5 : List (Nat × List Nat) := [(1, [3])]

def collabC7 : Collab :=
  ⟨fun _ => [Val.inst 2, Val.arg 0, Val.inst 1], fun _ _ => true,
   fun v => match v with | .arg _ => true | _ => false, fun _ => "a",
   fun v => match v with
     | .inst n => (n : Int) | .arg n => (100 + n : Int) | .other n => (200 + n : Int)⟩

theorem mem_insertBlock {b a : Nat} {s : List Nat} :
    b ∈ insertBlock a s ↔ b = a ∨ b ∈ s := by
  unfold insertBlock
  split
  · constructor
    · exact Or.inr
    · rintro (rfl | h)
      · assumption
      · assumption
  · simp [or_comm]

theorem mem_markAll {subB : Nat → Bool} {nodes : List PathNode} {s : List Nat} {b : Nat} :
    b ∈ markAll subB nodes s ↔
      b ∈ s ∨ ∃ n ∈ nodes, n.block = b ∧ subB b = false := by
  induction nodes generalizing s with
  | nil => simp [markAll]
  | cons n ns ih =>
    unfold markAll at ih ⊢
    simp only [List.foldl_cons]
    by_cases h : subB n.block
    · rw [if_pos h, ih]
      constructor
      · rintro (hb | ⟨m, hm, rfl, hmb⟩)
        · exact Or.inl hb
        · exact Or.inr ⟨m, List.mem_cons_of_mem _ hm, rfl, hmb⟩
      · rintro (hb | ⟨m, hm, rfl, hmb⟩)
        · exact Or.inl hb
        · rcases List.mem_cons.mp hm with rfl | hm
          · exact absurd h (by simp [hmb])
          · exact Or.inr ⟨m, hm, rfl, hmb⟩
    · rw [if_neg h, ih]
      simp only [mem_insertBlock]
      constructor
      · rintro ((rfl | hb) | ⟨m, hm, rfl, hmb⟩)
        · exact Or.inr ⟨n, List.mem_cons_self _ _, rfl, by simpa using h⟩
        · exact Or.inl hb
        · exact Or.inr ⟨m, List.mem_cons_of_mem _ hm, rfl, hmb⟩
      · rintro (hb | ⟨m, hm, rfl, hmb⟩)
        · exact Or.inl (Or.inr hb)
        · rcases List.mem_cons.mp hm with rfl | hm
          · exact Or.inl (Or.inl rfl)
          · exact Or.inr ⟨m, hm, rfl, hmb⟩

theorem mem_pushIfNotPresent {i j : Inst} {l : List Inst} :
    i ∈ pushIfNotPresent j l ↔ i = j ∨ i ∈ l := by
  unfold pushIfNotPresent
  split
  · constructor
    · exact Or.inr
    · rintro (rfl | h)
      · assumption
      · assumption
  · simp [or_comm]

theorem mem_pushAllIfNotPresent {i : Inst} {js l : List Inst} :
    i ∈ pushAllIfNotPresent js l ↔ i ∈ l ∨ i ∈ js := by
  induction js generalizing l with
  | nil => simp [pushAllIfNotPresent]
  | cons j js ih =>
    unfold pushAllIfNotPresent at ih ⊢
    simp only [List.foldl_cons, ih, mem_pushIfNotPresent, List.mem_cons]
    tauto

theorem pathContains_iff {nodes : List PathNode} {BB : Nat} :
    pathContains nodes BB = true ↔ BB ∈ nodes.map PathNode.block := by
  unfold pathContains
  rw [List.any_eq_true]
  simp only [decide_eq_true_eq, List.mem_map]

theorem findEqFrom_some {ctx : LoopCtx} {b : Nat} {i k : Nat} {e : Inst}
    (h : findEqFrom ctx b i k = some e) :
    e.1 = b ∧ i ≤ e.2 ∧ e.2 < i + k ∧ ctx.isEqPoint e = true := by
  induction k generalizing i with
  | zero => simp [findEqFrom] at h
  | succ k ih =>
    unfold findEqFrom at h
    split at h
    · cases h
      refine ⟨rfl, le_refl _, by omega, by assumption⟩
    · rcases ih h with ⟨h1, h2, h3, h4⟩
      exact ⟨h1, by omega, by omega, h4⟩

theorem findEqFrom_none {ctx : LoopCtx} {b : Nat} {i k : Nat}
    (h : findEqFrom ctx b i k = none) :
    ∀ j, i ≤ j → j < i + k → ctx.isEqPoint (b, j) = false := by
  induction k generalizing i with
  | zero => omega
  | succ k ih =>
    unfold findEqFrom at h
    split at h
    · cases h
    · intro j hij hjk
      by_cases hj : j = i
      · subst hj
        rename_i hni
        simpa using hni
      · exact ih h j (by omega) (by omega)

theorem hasEq_some {ctx : LoopCtx} {I e : Inst}
    (h : hasEquivalencePoint ctx I = some e) :
    e.1 = I.1 ∧ I.2 ≤ e.2 ∧ e.2 < ctx.blockLen I.1 ∧ ctx.isEqPoint e = true := by
  rcases findEqFrom_some h with ⟨h1, h2, h3, h4⟩
  refine ⟨h1, h2, ?_, h4⟩
  omega

theorem hasEq_none_term {ctx : LoopCtx} {I : Inst}
    (h : hasEquivalencePoint ctx I = none) (hv : ValidI ctx I) :
    ctx.isEqPoint (blockTerm ctx I.1) = false := by
  have := findEqFrom_none h (ctx.blockLen I.1 - 1) (by unfold ValidI at hv; omega)
    (by unfold ValidI at hv; omega)
  simpa [blockTerm] using this

theorem blocksOf_mem {p : LoopPath} {b : Nat} :
    b ∈ blocksOf p ↔ ∃ n ∈ p.Nodes, n.block = b := by
  simp [blocksOf]

theorem INV_emit_eq {ctx : LoopCtx} {s : DFSState} (hinv : INV ctx s)
    {p : LoopPath} (hgood : GoodPath ctx p) (heq : endsAtEqPoint ctx p)
    {pn : List PathNode} {np : List Inst} {dc tm : Bool} :
    INV ctx ⟨pn, s.CurPaths ++ [p],
      np, s.HasSpPath, markAll ctx.subLoopBlocks p.Nodes s.HasEqPointPath, dc, tm⟩ := by
  obtain ⟨hg, hsp, heqm⟩ := hinv
  obtain ⟨n0, hlast, hnsub, hend1, hend2, heb⟩ := heq
  refine ⟨?_, ?_, ?_⟩
  · intro q hq
    simp only [List.mem_append, List.mem_singleton] at hq
    rcases hq with hq | rfl
    · exact hg q hq
    · exact hgood
  · intro b
    simp only [List.mem_append, List.mem_singleton]
    rw [hsp b]
    constructor
    · rintro ⟨q, hq, hev⟩; exact ⟨q, Or.inl hq, hev⟩
    · rintro ⟨q, hq | rfl, hev⟩
      · exact ⟨q, hq, hev⟩
      · exact absurd hev.2.1 (by simp [heb])
  · intro b
    simp only [List.mem_append, List.mem_singleton]
    rw [mem_markAll, heqm b]
    constructor
    · rintro (⟨q, hq, hev⟩ | ⟨m, hm, rfl, hmb⟩)
      · exact ⟨q, Or.inl hq, hev⟩
      · exact ⟨p, Or.inr rfl,
          Or.inl ⟨n0, hlast, hnsub, hend1, hend2, heb⟩,
          blocksOf_mem.mpr ⟨m, hm, rfl⟩, hmb⟩
    · rintro ⟨q, hq | rfl, hev⟩
      · exact Or.inl ⟨q, hq, hev⟩
      · rcases blocksOf_mem.mp hev.2.1 with ⟨m, hm, hmb⟩
        exact Or.inr ⟨m, hm, hmb, hev.2.2⟩

theorem INV_emit_latch_sah {ctx : LoopCtx} {s : DFSState} (hinv : INV ctx s)
    {p : LoopPath} (hgood : GoodPath ctx p)
    (hsah : p.StartsAtHeader = true) (heb : p.EndsAtBackedge = true)
    {pn : List PathNode} {np : List Inst} {dc tm : Bool} :
    INV ctx ⟨pn, s.CurPaths ++ [p],
      np, markAll ctx.subLoopBlocks p.Nodes s.HasSpPath, s.HasEqPointPath, dc, tm⟩ := by
  obtain ⟨hg, hsp, heqm⟩ := hinv
  refine ⟨?_, ?_, ?_⟩
  · intro q hq
    simp only [List.mem_append, List.mem_singleton] at hq
    rcases hq with hq | rfl
    · exact hg q hq
    · exact hgood
  · intro b
    simp only [List.mem_append, List.mem_singleton]
    rw [mem_markAll, hsp b]
    constructor
    · rintro (⟨q, hq, hev⟩ | ⟨m, hm, rfl, hmb⟩)
      · exact ⟨q, Or.inl hq, hev⟩
      · exact ⟨p, Or.inr rfl, hsah, heb, blocksOf_mem.mpr ⟨m, hm, rfl⟩, hmb⟩
    · rintro ⟨q, hq | rfl, hev⟩
      · exact Or.inl ⟨q, hq, hev⟩
      · rcases blocksOf_mem.mp hev.2.2.1 with ⟨m, hm, hmb⟩
        exact Or.inr ⟨m, hm, hmb, hev.2.2.2⟩
  · intro b
    simp only [List.mem_append, List.mem_singleton]
    rw [heqm b]
    constructor
    · rintro ⟨q, hq, hev⟩; exact ⟨q, Or.inl hq, hev⟩
    · rintro ⟨q, hq | rfl, hev⟩
      · exact ⟨q, hq, hev⟩
      · rcases hev.1 with hpe | hps
        · obtain ⟨m, _, _, _, _, hfe⟩ := hpe
          exact absurd hfe (by simp [heb])
        · exact absurd hps.1 (by simp [hsah])

theorem INV_emit_latch_nonsah {ctx : LoopCtx} {s : DFSState} (hinv : INV ctx s)
    {p : LoopPath} (hgood : GoodPath ctx p)
    (hsah : p.StartsAtHeader = false) (heb : p.EndsAtBackedge = true)
    {pn : List PathNode} {np : List Inst} {dc tm : Bool} :
    INV ctx ⟨pn, s.CurPaths ++ [p],
      np, s.HasSpPath, markAll ctx.subLoopBlocks p.Nodes s.HasEqPointPath, dc, tm⟩ := by
  obtain ⟨hg, hsp, heqm⟩ := hinv
  refine ⟨?_, ?_, ?_⟩
  · intro q hq
    simp only [List.mem_append, List.mem_singleton] at hq
    rcases hq with hq | rfl
    · exact hg q hq
    · exact hgood
  · intro b
    simp only [List.mem_append, List.mem_singleton]
    rw [hsp b]
    constructor
    · rintro ⟨q, hq, hev⟩; exact ⟨q, Or.inl hq, hev⟩
    · rintro ⟨q, hq | rfl, hev⟩
      · exact ⟨q, hq, hev⟩
      · exact absurd hev.1 (by simp [hsah])
  · intro b
    simp only [List.mem_append, List.mem_singleton]
    rw [mem_markAll, heqm b]
    constructor
    · rintro (⟨q, hq, hev⟩ | ⟨m, hm, rfl, hmb⟩)
      · exact ⟨q, Or.inl hq, hev⟩
      · exact ⟨p, Or.inr rfl, Or.inr ⟨hsah, heb⟩,
          blocksOf_mem.mpr ⟨m, hm, rfl⟩, hmb⟩
    · rintro ⟨q, hq | rfl, hev⟩
      · exact Or.inl ⟨q, hq, hev⟩
      · rcases blocksOf_mem.mp hev.2.1 with ⟨m, hm, hmb⟩
        exact Or.inr ⟨m, hm, hmb, hev.2.2⟩

theorem INV_emit_trunc {ctx : LoopCtx} {s : DFSState} (hinv : INV ctx s)
    {p : LoopPath} (hgood : GoodPath ctx p)
    (hne : ¬ endsAtEqPoint ctx p) (heb : p.EndsAtBackedge = false)
    {pn : List PathNode} {np : List Inst} {dc tm : Bool} :
    INV ctx ⟨pn, s.CurPaths ++ [p],
      np, s.HasSpPath, s.HasEqPointPath, dc, tm⟩ := by
  obtain ⟨hg, hsp, heqm⟩ := hinv
  refine ⟨?_, ?_, ?_⟩
  · intro q hq
    simp only [List.mem_append, List.mem_singleton] at hq
    rcases hq with hq | rfl
    · exact hg q hq
    · exact hgood
  · intro b
    simp only [List.mem_append, List.mem_singleton]
    rw [hsp b]
    constructor
    · rintro ⟨q, hq, hev⟩; exact ⟨q, Or.inl hq, hev⟩
    · rintro ⟨q, hq | rfl, hev⟩
      · exact ⟨q, hq, hev⟩
      · exact absurd hev.2.1 (by simp [heb])
  · intro b
    simp only [List.mem_append, List.mem_singleton]
    rw [heqm b]
    constructor
    · rintro ⟨q, hq, hev⟩; exact ⟨q, Or.inl hq, hev⟩
    · rintro ⟨q, hq | rfl, hev⟩
      · exact ⟨q, hq, hev⟩
      · rcases hev.1 with hpe | hps
        · exact absurd hpe hne
        · exact absurd hps.2 (by simp [heb])

theorem ne_nil_of_getLast? {α : Type} {l : List α} {a : α}
    (h : l.getLast? = some a) : l ≠ [] := by
  intro hn; subst hn; simp at h

theorem truncList_good {ctx : LoopCtx} {Start : Inst} {SAH : Bool} {BB : Nat} :
    ∀ l s r s' n, StateOK ctx s →
    (∀ i ∈ l, ValidI ctx i) →
    s.PathNodes.getLast? = some n → n.block = BB →
    (n.isSubLoopExit = true ∨ ctx.isEqPoint (blockTerm ctx BB) = false) →
    (l ≠ [] → ∃ succ ∈ ctx.succs BB, ctx.contains succ = true ∧
       ctx.subLoopBlocks succ = true ∧ (ctx.subSuccs succ).1 ≠ []) →
    dfsTruncList ctx Start SAH BB l s = some (r, s') → r = true →
    s'.PathNodes = s.PathNodes ∧ StateOK ctx s' := by
  intro l
  induction l with
  | nil =>
    intro s r s' n hs _ _ _ _ _ hrun hr
    simp only [dfsTruncList, Option.some.injEq, Prod.mk.injEq] at hrun
    rw [← hrun.2]
    exact ⟨rfl, hs⟩
  | cons SLE rest ih =>
    intro s r s' n hs hvl hlast hnb hdisj hex hrun hr
    obtain ⟨pn, cp, np, sp, eqm, dc, tm⟩ := s
    simp only [dfsTruncList] at hrun
    split at hrun
    · simp only [Option.some.injEq, Prod.mk.injEq] at hrun
      rw [← hrun.1] at hr
      cases hr
    · obtain ⟨hwf, hnd, hnp, hinv⟩ := hs
      simp only at hlast hwf hnd hnp hinv hrun ⊢
      have hgood : GoodPath ctx ⟨pn, Start, blockTerm ctx BB, SAH, false⟩ := by
        refine ⟨⟨ne_nil_of_getLast? hlast, hnd, hwf⟩, Or.inr (Or.inr ?_)⟩
        refine ⟨n, hlast, by rw [hnb], rfl, ?_, ?_⟩
        · simpa [hnb] using hdisj
        · rcases hex (by simp) with ⟨succ, hsm, hc, hsb, hne⟩
          exact ⟨succ, by rw [hnb]; exact hsm, hc, hsb, hne⟩
      have hnoteq : ¬ endsAtEqPoint ctx ⟨pn, Start, blockTerm ctx BB, SAH, false⟩ := by
        rintro ⟨m, hm, hmf, _, hm2, _⟩
        simp only at hm hm2
        rw [hlast] at hm
        cases hm
        rcases hdisj with hop | hni
        · rw [hop] at hmf; cases hmf
        · rw [hni] at hm2; cases hm2
      have hs2 : StateOK ctx ⟨pn, cp ++ [⟨pn, Start, blockTerm ctx BB, SAH, false⟩],
          pushIfNotPresent SLE np, sp, eqm, dc, tm⟩ := by
        refine ⟨hwf, hnd, ?_, ?_⟩
        · intro i hi
          rcases mem_pushIfNotPresent.mp hi with rfl | hi
          · exact hvl i (List.mem_cons_self _ _)
          · exact hnp i hi
        · exact INV_emit_trunc hinv hgood hnoteq rfl
      have := ih _ r s' n hs2 (fun i hi => hvl i (List.mem_cons_of_mem _ hi))
        hlast hnb hdisj (fun _ => hex (by simp)) hrun hr
      exact this

theorem span_step {ctx : LoopCtx} {fuel : Nat}
    (ihL : LoopDFSGood ctx fuel) (ihS : SpanGood ctx fuel) :
    SpanGood ctx (fuel + 1) := by
  intro Start SAH l s r s' hvl hs hrun hr
  match l with
  | [] =>
    simp only [dfsSpanList, Option.some.injEq, Prod.mk.injEq] at hrun
    rw [← hrun.2]
    exact ⟨rfl, hs⟩
  | SLE :: rest =>
    simp only [dfsSpanList] at hrun
    cases hL : loopDFS ctx Start SAH fuel SLE s with
    | none => rw [hL] at hrun; cases hrun
    | some p =>
      obtain ⟨rb, s1⟩ := p
      rw [hL] at hrun
      cases rb with
      | false =>
        simp only [Option.some.injEq, Prod.mk.injEq] at hrun
        rw [← hrun.1] at hr
        cases hr
      | true =>
        simp only at hrun
        have h1 := ihL Start SAH SLE s true s1 (hvl SLE (List.mem_cons_self _ _)) hs hL rfl
        have h2 := ihS Start SAH rest s1 r s'
          (fun i hi => hvl i (List.mem_cons_of_mem _ hi)) h1.2 hrun hr
        exact ⟨h2.1.trans h1.1, h2.2⟩

theorem eq_step {ctx : LoopCtx} {fuel : Nat} (hctx : CtxOK ctx)
    (ihS : SpanGood ctx fuel) (ihE : EqSuccsGood ctx fuel) :
    EqSuccsGood ctx (fuel + 1) := by
  intro Start SAH l s r s' hs hrun hr
  match l with
  | [] =>
    simp only [dfsEqSuccs, Option.some.injEq, Prod.mk.injEq] at hrun
    rw [← hrun.2]
    exact ⟨rfl, hs⟩
  | succ :: rest =>
    simp only [dfsEqSuccs] at hrun
    split at hrun
    · exact ihE Start SAH rest s r s' hs hrun hr
    · split at hrun
      · have hs1 : StateOK ctx { s with NewPaths := pushIfNotPresent (succ, 0) s.NewPaths } := by
          obtain ⟨hwf, hnd, hnp, hinv⟩ := hs
          refine ⟨hwf, hnd, ?_, hinv⟩
          intro i hi
          rcases mem_pushIfNotPresent.mp hi with rfl | hi
          · exact hctx.1 succ
          · exact hnp i hi
        have h2 := ihE Start SAH rest _ r s' hs1 hrun hr
        exact ⟨h2.1, h2.2⟩
      · cases hSp : dfsSpanList ctx Start SAH fuel (ctx.subSuccs succ).2
          { s with NewPaths := pushAllIfNotPresent (ctx.subSuccs succ).1 s.NewPaths } with
        | none => rw [hSp] at hrun; cases hrun
        | some p =>
          obtain ⟨rb, s2⟩ := p
          rw [hSp] at hrun
          cases rb with
          | false =>
            simp only [Option.some.injEq, Prod.mk.injEq] at hrun
            rw [← hrun.1] at hr
            cases hr
          | true =>
            simp only at hrun
            have hs1 : StateOK ctx
                { s with NewPaths := pushAllIfNotPresent (ctx.subSuccs succ).1 s.NewPaths } := by
              obtain ⟨hwf, hnd, hnp, hinv⟩ := hs
              refine ⟨hwf, hnd, ?_, hinv⟩
              intro i hi
              rcases mem_pushAllIfNotPresent.mp hi with hi | hi
              · exact hnp i hi
              · exact hctx.2.1 succ i hi
            have h1 := ihS Start SAH _ _ true s2 (fun i hi => hctx.2.2 succ i hi) hs1 hSp rfl
            have h2 := ihE Start SAH rest s2 r s' h1.2 hrun hr
            exact ⟨h2.1.trans h1.1, h2.2⟩

theorem else_step {ctx : LoopCtx} {fuel : Nat} (hctx : CtxOK ctx)
    (ihL : LoopDFSGood ctx fuel) (ihS : SpanGood ctx fuel)
    (ihE : ElseGood ctx fuel) :
    ElseGood ctx (fuel + 1) := by
  intro Start SAH BB l s r s' n hs hlast hnb hnf hni hl hrun hr
  match l with
  | [] =>
    simp only [dfsElseSuccs, Option.some.injEq, Prod.mk.injEq] at hrun
    rw [← hrun.2]
    exact ⟨rfl, hs⟩
  | succ :: rest =>
    simp only [dfsElseSuccs] at hrun
    split at hrun
    · exact ihE Start SAH BB rest s r s' n hs hlast hnb hnf hni
        (fun x hx => hl x (List.mem_cons_of_mem _ hx)) hrun hr
    · rename_i hcont
      split at hrun
      · cases hL : loopDFS ctx Start SAH fuel (succ, 0) s with
        | none => rw [hL] at hrun; cases hrun
        | some p =>
          obtain ⟨rb, s1⟩ := p
          rw [hL] at hrun
          cases rb with
          | false =>
            simp only [Option.some.injEq, Prod.mk.injEq] at hrun
            rw [← hrun.1] at hr
            cases hr
          | true =>
            simp only at hrun
            have h1 := ihL Start SAH (succ, 0) s true s1 (hctx.1 succ) hs hL rfl
            have h2 := ihE Start SAH BB rest s1 r s' n h1.2
              (by rw [h1.1]; exact hlast) hnb hnf hni
              (fun x hx => hl x (List.mem_cons_of_mem _ hx)) hrun hr
            exact ⟨h2.1.trans h1.1, h2.2⟩
      · rename_i hsub
        cases hT : dfsTruncList ctx Start SAH BB (ctx.subSuccs succ).1 s with
        | none => rw [hT] at hrun; cases hrun
        | some p =>
          obtain ⟨rb, s1⟩ := p
          rw [hT] at hrun
          cases rb with
          | false =>
            simp only [Option.some.injEq, Prod.mk.injEq] at hrun
            rw [← hrun.1] at hr
            cases hr
          | true =>
            simp only at hrun
            have hct : ctx.contains succ = true := by
              simpa using hcont
            have hst : ctx.subLoopBlocks succ = true := by
              simpa using hsub
            have h1 := @truncList_good ctx _ _ _ _ s true s1 n hs
              (fun i hi => hctx.2.1 succ i hi) hlast hnb (Or.inr hni)
              (fun hne => ⟨succ, hl succ (List.mem_cons_self _ _), hct, hst, hne⟩)
              hT rfl
            cases hSp : dfsSpanList ctx Start SAH fuel (ctx.subSuccs succ).2 s1 with
            | none => rw [hSp] at hrun; cases hrun
            | some q =>
              obtain ⟨rb2, s2⟩ := q
              rw [hSp] at hrun
              cases rb2 with
              | false =>
                simp only [Option.some.injEq, Prod.mk.injEq] at hrun
                rw [← hrun.1] at hr
                cases hr
              | true =>
                simp only at hrun
                have h2 := ihS Start SAH _ s1 true s2
                  (fun i hi => hctx.2.2 succ i hi) h1.2 hSp rfl
                have h3 := ihE Start SAH BB rest s2 r s' n h2.2
                  (by rw [h2.1, h1.1]; exact hlast) hnb hnf hni
                  (fun x hx => hl x (List.mem_cons_of_mem _ hx)) hrun hr
                exact ⟨h3.1.trans (h2.1.trans h1.1), h3.2⟩

theorem sub_step {ctx : LoopCtx} {fuel : Nat} (hctx : CtxOK ctx)
    (ihL : LoopDFSGood ctx fuel) (ihS : SpanGood ctx fuel)
    (ihB : SubGood ctx fuel) :
    SubGood ctx (fuel + 1) := by
  intro Start SAH BB l s r s' n hs hlast hnb hnf hl hrun hr
  match l with
  | [] =>
    simp only [dfsSubSuccs, Option.some.injEq, Prod.mk.injEq] at hrun
    rw [← hrun.2]
    exact ⟨rfl, hs⟩
  | succ :: rest =>
    simp only [dfsSubSuccs] at hrun
    split at hrun
    · exact ihB Start SAH BB rest s r s' n hs hlast hnb hnf
        (fun x hx => hl x (List.mem_cons_of_mem _ hx)) hrun hr
    · rename_i hcs
      split at hrun
      · cases hL : loopDFS ctx Start SAH fuel (succ, 0) s with
        | none => rw [hL] at hrun; cases hrun
        | some p =>
          obtain ⟨rb, s1⟩ := p
          rw [hL] at hrun
          cases rb with
          | false =>
            simp only [Option.some.injEq, Prod.mk.injEq] at hrun
            rw [← hrun.1] at hr
            cases hr
          | true =>
            simp only at hrun
            have h1 := ihL Start SAH (succ, 0) s true s1 (hctx.1 succ) hs hL rfl
            have h2 := ihB Start SAH BB rest s1 r s' n h1.2
              (by rw [h1.1]; exact hlast) hnb hnf
              (fun x hx => hl x (List.mem_cons_of_mem _ hx)) hrun hr
            exact ⟨h2.1.trans h1.1, h2.2⟩
      · rename_i hsub
        cases hT : dfsTruncList ctx Start SAH BB (ctx.subSuccs succ).1 s with
        | none => rw [hT] at hrun; cases hrun
        | some p =>
          obtain ⟨rb, s1⟩ := p
          rw [hT] at hrun
          cases rb with
          | false =>
            simp only [Option.some.injEq, Prod.mk.injEq] at hrun
            rw [← hrun.1] at hr
            cases hr
          | true =>
            simp only at hrun
            have hct : ctx.contains succ = true := by
              have := not_or.mp hcs
              simpa using this.2
            have hst : ctx.subLoopBlocks succ = true := by
              simpa using hsub
            have h1 := @truncList_good ctx _ _ _ _ s true s1 n hs
              (fun i hi => hctx.2.1 succ i hi) hlast hnb (Or.inl hnf)
              (fun hne => ⟨succ, hl succ (List.mem_cons_self _ _), hct, hst, hne⟩)
              hT rfl
            cases hSp : dfsSpanList ctx Start SAH fuel (ctx.subSuccs succ).2 s1 with
            | none => rw [hSp] at hrun; cases hrun
            | some q =>
              obtain ⟨rb2, s2⟩ := q
              rw [hSp] at hrun
              cases rb2 with
              | false =>
                simp only [Option.some.injEq, Prod.mk.injEq] at hrun
                rw [← hrun.1] at hr
                cases hr
              | true =>
                simp only at hrun
                have h2 := ihS Start SAH _ s1 true s2
                  (fun i hi => hctx.2.2 succ i hi) h1.2 hSp rfl
                have h3 := ihB Start SAH BB rest s2 r s' n h2.2
                  (by rw [h2.1, h1.1]; exact hlast) hnb hnf
                  (fun x hx => hl x (List.mem_cons_of_mem _ hx)) hrun hr
                exact ⟨h3.1.trans (h2.1.trans h1.1), h3.2⟩

theorem not_mem_blocks_of_pc_false {pn : List PathNode} {B : Nat}
    (h : ¬ pathContains pn B = true) : B ∉ pn.map PathNode.block := by
  intro hm
  exact h (pathContains_iff.mpr hm)

theorem nodup_push {pn : List PathNode} {node : PathNode}
    (hnd : (pn.map PathNode.block).Nodup)
    (hni : node.block ∉ pn.map PathNode.block) :
    ((pn ++ [node]).map PathNode.block).Nodup := by
  rw [List.map_append]
  simp only [List.map_cons, List.map_nil]
  rw [List.nodup_append]
  refine ⟨hnd, List.nodup_singleton _, ?_⟩
  intro a ha hb
  simp only [List.mem_singleton] at hb
  subst hb
  exact hni ha

theorem loop_step {ctx : LoopCtx} {fuel : Nat} (_hctx : CtxOK ctx)
    (ihE : EqSuccsGood ctx fuel) (ihElse : ElseGood ctx fuel)
    (ihSub : SubGood ctx fuel) :
    LoopDFSGood ctx (fuel + 1) := by
  intro Start SAH I s r s' hv hs hrun hr
  obtain ⟨pn, cp, np, sp, eqm, dc, tm⟩ := s
  obtain ⟨hwf, hnd, hnp, hinv⟩ := hs
  simp only at hwf hnd hnp hinv
  simp only [loopDFS] at hrun
  split at hrun
  · rename_i hsubI
    split at hrun
    · -- cycle detected: returns false
      simp only [Option.some.injEq, Prod.mk.injEq] at hrun
      rw [← hrun.1] at hr
      cases hr
    · rename_i hpc
      have hwf1 : ∀ n ∈ pn ++ [(⟨I.1, false⟩ : PathNode)],
          n.isSubLoopExit = ctx.subLoopBlocks n.block := by
        intro n hn
        rcases List.mem_append.mp hn with hn | hn
        · exact hwf n hn
        · simp only [List.mem_singleton] at hn
          subst hn
          simp [hsubI]
      have hnd1 := @nodup_push _ ⟨I.1, false⟩ hnd (not_mem_blocks_of_pc_false hpc)
      split at hrun
      · -- match arm: hasEquivalencePoint = some eqP
        rename_i eqP hEq
        obtain ⟨heq1, heq2, heq3, heq4⟩ := hasEq_some hEq
        split at hrun
        · -- too many paths: returns false
          simp only [Option.some.injEq, Prod.mk.injEq] at hrun
          rw [← hrun.1] at hr
          cases hr
        · have hgood : GoodPath ctx
              ⟨pn ++ [⟨I.1, false⟩], Start, eqP, SAH, false⟩ := by
            refine ⟨⟨by simp, hnd1, hwf1⟩, Or.inr (Or.inl ?_)⟩
            exact ⟨⟨I.1, false⟩, List.getLast?_concat _, rfl, heq1, heq4, rfl⟩
          have heqp : endsAtEqPoint ctx
              ⟨pn ++ [⟨I.1, false⟩], Start, eqP, SAH, false⟩ :=
            ⟨⟨I.1, false⟩, List.getLast?_concat _, rfl, heq1, heq4, rfl⟩
          have hs3 : StateOK ctx
              ⟨pn ++ [⟨I.1, false⟩],
                cp ++ [⟨pn ++ [⟨I.1, false⟩], Start, eqP, SAH, false⟩],
                np, sp, markAll ctx.subLoopBlocks (pn ++ [⟨I.1, false⟩]) eqm, dc, tm⟩ :=
            ⟨hwf1, hnd1, hnp, INV_emit_eq hinv hgood heqp⟩
          split at hrun
          · -- match arm: next = none
            cases hrun
          · -- match arm: next = some (false, s4)
            simp only [Option.some.injEq, Prod.mk.injEq] at hrun
            rw [← hrun.1] at hr
            cases hr
          · -- match arm: next = some (true, s4)
            rename_i s4 hif
            simp only [Option.some.injEq, Prod.mk.injEq] at hrun
            obtain ⟨hr1, hr2⟩ := hrun
            by_cases hterm : isTerm ctx eqP = false
            · rw [if_pos hterm] at hif
              simp only [Option.some.injEq, Prod.mk.injEq, true_and] at hif
              rw [← hr2, ← hif]
              simp only [List.dropLast_concat]
              refine ⟨trivial, hwf, hnd, ?_, ?_⟩
              · intro i hi
                rcases mem_pushIfNotPresent.mp hi with rfl | hi
                · have hterm2 : eqP.2 ≠ ctx.blockLen eqP.1 - 1 := by
                    intro hcontra
                    rw [isTerm, hcontra] at hterm
                    simp at hterm
                  show eqP.2 + 1 < ctx.blockLen eqP.1
                  rw [heq1] at hterm2 ⊢
                  omega
                · exact hnp i hi
              · exact INV_emit_eq hinv hgood heqp
            · rw [if_neg hterm] at hif
              have h1 := ihE Start SAH (ctx.succs I.1) _ true s4 hs3 hif rfl
              rw [← hr2]
              rw [h1.1]
              simp only [List.dropLast_concat]
              obtain ⟨hwf4, hnd4, hnp4, hinv4⟩ := h1.2
              exact ⟨trivial, hwf, hnd, hnp4, hinv4⟩
      · -- match arm: hasEquivalencePoint = none
        rename_i hEq
        split at hrun
        · -- latch block: record a backedge path
          rename_i hlatch
          have hgood : GoodPath ctx
              ⟨pn ++ [⟨I.1, false⟩], Start, blockTerm ctx I.1, SAH, true⟩ := by
            refine ⟨⟨by simp, hnd1, hwf1⟩, Or.inl ?_⟩
            exact ⟨⟨I.1, false⟩, List.getLast?_concat _, hlatch, rfl, rfl, rfl⟩
          split at hrun
          · -- too many paths
            simp only [Option.some.injEq, Prod.mk.injEq] at hrun
            rw [← hrun.1] at hr
            cases hr
          · split at hrun
            · -- StartsAtHeader: mark spanning
              rename_i hsah
              simp only [Option.some.injEq, Prod.mk.injEq] at hrun
              obtain ⟨hr1, hr2⟩ := hrun
              rw [← hr2]
              simp only [List.dropLast_concat]
              refine ⟨trivial, hwf, hnd, hnp, ?_⟩
              exact INV_emit_latch_sah hinv hgood (by simp [hsah]) rfl
            · rename_i hsah
              simp only [Option.some.injEq, Prod.mk.injEq] at hrun
              obtain ⟨hr1, hr2⟩ := hrun
              rw [← hr2]
              simp only [List.dropLast_concat]
              refine ⟨trivial, hwf, hnd, hnp, ?_⟩
              refine INV_emit_latch_nonsah hinv hgood ?_ rfl
              simpa using hsah
        · -- ordinary block: explore successors
          split at hrun
          · cases hrun
          · simp only [Option.some.injEq, Prod.mk.injEq] at hrun
            rw [← hrun.1] at hr
            cases hr
          · rename_i s4 hE
            simp only [Option.some.injEq, Prod.mk.injEq] at hrun
            obtain ⟨hr1, hr2⟩ := hrun
            have hs1 : StateOK ctx ⟨pn ++ [⟨I.1, false⟩], cp, np, sp, eqm, dc, tm⟩ :=
              ⟨hwf1, hnd1, hnp, hinv⟩
            have h1 := ihElse Start SAH I.1 (ctx.succs I.1) _ true s4 ⟨I.1, false⟩
              hs1 (List.getLast?_concat _) rfl rfl
              (hasEq_none_term hEq hv) (fun x hx => hx) hE rfl
            rw [← hr2]
            rw [h1.1]
            simp only [List.dropLast_concat]
            obtain ⟨hwf4, hnd4, hnp4, hinv4⟩ := h1.2
            exact ⟨trivial, hwf, hnd, hnp4, hinv4⟩
  · -- sub-loop block
    rename_i hsubI
    split at hrun
    · simp only [Option.some.injEq, Prod.mk.injEq] at hrun
      rw [← hrun.1] at hr
      cases hr
    · rename_i hpc
      have hsubT : ctx.subLoopBlocks I.1 = true := by
        simpa using hsubI
      have hwf1 : ∀ n ∈ pn ++ [(⟨I.1, true⟩ : PathNode)],
          n.isSubLoopExit = ctx.subLoopBlocks n.block := by
        intro n hn
        rcases List.mem_append.mp hn with hn | hn
        · exact hwf n hn
        · simp only [List.mem_singleton] at hn
          subst hn
          simp [hsubT]
      have hnd1 := @nodup_push _ ⟨I.1, true⟩ hnd (not_mem_blocks_of_pc_false hpc)
      split at hrun
      · cases hrun
      · simp only [Option.some.injEq, Prod.mk.injEq] at hrun
        rw [← hrun.1] at hr
        cases hr
      · rename_i s4 hE
        simp only [Option.some.injEq, Prod.mk.injEq] at hrun
        obtain ⟨hr1, hr2⟩ := hrun
        have hs1 : StateOK ctx ⟨pn ++ [⟨I.1, true⟩], cp, np, sp, eqm, dc, tm⟩ :=
          ⟨hwf1, hnd1, hnp, hinv⟩
        have h1 := ihSub Start SAH I.1 (ctx.succs I.1) _ true s4 ⟨I.1, true⟩
          hs1 (List.getLast?_concat _) rfl rfl (fun x hx => hx) hE rfl
        rw [← hr2]
        rw [h1.1]
        simp only [List.dropLast_concat]
        obtain ⟨hwf4, hnd4, hnp4, hinv4⟩ := h1.2
        exact ⟨trivial, hwf, hnd, hnp4, hinv4⟩

/-- Master invariant lemma: at every fuel, all five mutually recursive
search functions satisfy their success contracts. -/

theorem dfs_good_all {ctx : LoopCtx} (hctx : CtxOK ctx) :
    ∀ fuel, LoopDFSGood ctx fuel ∧ EqSuccsGood ctx fuel ∧ SpanGood ctx fuel ∧
      ElseGood ctx fuel ∧ SubGood ctx fuel := by
  intro fuel
  induction fuel with
  | zero =>
    refine ⟨?_, ?_, ?_, ?_, ?_⟩
    · intro Start SAH I s r s' _ _ hrun
      simp [loopDFS] at hrun
    · intro Start SAH l s r s' _ hrun
      simp [dfsEqSuccs] at hrun
    · intro Start SAH l s r s' _ _ hrun
      simp [dfsSpanList] at hrun
    · intro Start SAH BB l s r s' n _ _ _ _ _ _ hrun
      simp [dfsElseSuccs] at hrun
    · intro Start SAH BB l s r s' n _ _ _ _ _ hrun
      simp [dfsSubSuccs] at hrun
  | succ fuel ih =>
    obtain ⟨ihL, ihE, ihS, ihElse, ihSub⟩ := ih
    exact ⟨loop_step hctx ihE ihElse ihSub, eq_step hctx ihS ihE,
      span_step ihL ihS, else_step hctx ihL ihS ihElse,
      sub_step hctx ihL ihS ihSub⟩

/-- Contract of the drain loop: successful draining of the queued starts
preserves the state invariant. -/

theorem drain_good {ctx : LoopCtx} (hctx : CtxOK ctx) :
    ∀ fuel s r s', StateOK ctx s →
      drainNewPaths ctx fuel s = some (r, s') → r = true → StateOK ctx s' := by
  intro fuel
  induction fuel with
  | zero =>
    intro s r s' _ hrun
    simp [drainNewPaths] at hrun
  | succ fuel ih =>
    intro s r s' hs hrun hr
    simp only [drainNewPaths] at hrun
    split at hrun
    · rename_i hnil
      simp only [Option.some.injEq, Prod.mk.injEq] at hrun
      rw [← hrun.2]
      exact hs
    · rename_i st rest hcons
      cases hL : loopDFS ctx st false (fuel + 1) st { s with NewPaths := rest } with
      | none => rw [hL] at hrun; cases hrun
      | some p =>
        obtain ⟨rb, s1⟩ := p
        rw [hL] at hrun
        cases rb with
        | false =>
          simp only [Option.some.injEq, Prod.mk.injEq] at hrun
          rw [← hrun.1] at hr
          cases hr
        | true =>
          simp only at hrun
          obtain ⟨hwf, hnd, hnp, hinv⟩ := hs
          have hsrest : StateOK ctx { s with NewPaths := rest } := by
            refine ⟨hwf, hnd, ?_, hinv⟩
            intro i hi
            exact hnp i (by rw [hcons]; exact List.mem_cons_of_mem _ hi)
          have hvst : ValidI ctx st := hnp st (by rw [hcons]; exact List.mem_cons_self _ _)
          have h1 := (dfs_good_all hctx (fuel + 1)).1 st false st _ true s1 hvst hsrest hL rfl
          exact ih s1 r s' h1.2 hrun hr

/-- Invariant of a successfully analyzed loop: `analyzeLoop` returning
`true` yields a state whose recorded paths are all classified and whose
per-block summaries are exactly characterized by path evidence. -/

theorem analyzeLoop_inv {ctx : LoopCtx} {fuel : Nat} {s : DFSState}
    (hctx : CtxOK ctx)
    (h : analyzeLoop ctx fuel false false = some (true, s)) :
    INV ctx s := by
  simp only [analyzeLoop] at h
  cases hL : loopDFS ctx (ctx.header, 0) true fuel (ctx.header, 0) ⟨[], [], [], [], [], false, false⟩ with
  | none => rw [hL] at h; cases h
  | some p =>
    obtain ⟨rb, s1⟩ := p
    rw [hL] at h
    cases rb with
    | false =>
      simp only [Option.some.injEq, Prod.mk.injEq] at h
      cases h.1
    | true =>
      simp only at h
      have hs0 : StateOK ctx ⟨[], [], [], [], [], false, false⟩ := by
        refine ⟨?_, ?_, ?_, ?_, ?_, ?_⟩ <;> simp
      have hv : ValidI ctx (ctx.header, 0) := hctx.1 ctx.header
      have h1 := (dfs_good_all hctx fuel).1 (ctx.header, 0) true (ctx.header, 0) _ true s1 hv hs0 hL rfl
      exact (drain_good hctx fuel s1 true s h1.2 h rfl).2.2.2

theorem ctxC2_ok : CtxOK ctxC2 := by
  refine ⟨fun b => Nat.one_pos, ?_, ?_⟩
  · intro sc i hi
    by_cases h : sc = 1
    · subst h
      simp only [ctxC2, if_pos] at hi
      simp only [List.mem_singleton] at hi
      subst hi
      exact Nat.one_pos
    · simp [ctxC2, h] at hi
  · intro sc i hi
    by_cases h : sc = 1 <;> simp [ctxC2, h] at hi

theorem ctxC3_ok : CtxOK ctxC3 := by
  refine ⟨?_, ?_, ?_⟩
  · intro b
    show 0 < (if b = 0 then 2 else 1)
    split <;> omega
  · intro sc i hi
    simp [ctxC3] at hi
  · intro sc i hi
    simp [ctxC3] at hi

/-- Claim C1: if during any loop's search a cycle is detected or the path
ceiling is exceeded (the two failure flags of the run), the whole-function
analysis fails closed: after `runOnFunction`, the `Paths`, `HasSpPath` and
`HasEqPointPath` maps are empty, so no loop of the function has any paths
or per-block summary booleans — zero results for every loop, never a
truncated path list. -/

theorem claim_C1_fail_closed {fm : FuncModel} {fuel : Nat} {st : FuncState}
    (hrun : runOnFunction fm fuel = some st)
    (hfail : st.TooManyPaths = true ∨ st.DetectedCycle = true) :
    st.Paths = [] ∧ st.HasSpPath = [] ∧ st.HasEqPointPath = [] := by
  simp only [runOnFunction] at hrun
  split at hrun
  · cases hrun
  · rename_i st0 hR
    simp only [Option.some.injEq] at hrun
    by_cases h1 : st0.TooManyPaths = true
    · rw [if_pos h1] at hrun
      by_cases h2 : (resetEnum st0).DetectedCycle = true
      · rw [if_pos h2] at hrun
        rw [← hrun]
        simp [resetEnum]
      · rw [if_neg h2] at hrun
        rw [← hrun]
        simp [resetEnum]
    · rw [if_neg h1] at hrun
      by_cases h2 : st0.DetectedCycle = true
      · rw [if_pos h2] at hrun
        rw [← hrun]
        simp [resetEnum]
      · rw [if_neg h2] at hrun
        rw [← hrun] at hfail
        rcases hfail with hf | hf
        · exact absurd hf h1
        · exact absurd hf h2

/-- Witness for C1: the function `fmC1` contains a cycle inside its loop
body; the run reports `DetectedCycle` and every result map is empty. -/

theorem claim_C1_fail_closed_witness :
    runOnFunction fmC1 30 = some ⟨[], [], [], false, true⟩ ∧
    (⟨[], [], [], false, true⟩ : FuncState).Paths = [] ∧
    (⟨[], [], [], false, true⟩ : FuncState).HasSpPath = [] ∧
    (⟨[], [], [], false, true⟩ : FuncState).HasEqPointPath = [] :=
  ⟨by decide, @claim_C1_fail_closed fmC1 30 ⟨[], [], [], false, true⟩
    (by decide) (Or.inr rfl)⟩

/-- Counterexample to claim C2 as stated: in the loop `ctxC2` the first
enumerated path ends at block `0`'s terminator with
`EndsAtBackedge = false`, yet block `0` is not a latch and contains no
migration point (the path was truncated at the opaque sub-loop boundary);
so a path's final block can be neither a latch nor a block containing a
migration point. -/

theorem claim_C2_counterexample :
    analyzeLoop ctxC2 30 false false = some (true,
      ⟨[], [⟨[⟨0, false⟩], (0, 0), (0, 0), true, false⟩,
            ⟨[⟨1, true⟩, ⟨2, false⟩], (1, 0), (2, 0), false, true⟩],
        [], [], [2], false, false⟩) ∧
    (⟨[⟨0, false⟩], (0, 0), (0, 0), true, false⟩ : LoopPath).EndsAtBackedge = false ∧
    (⟨[⟨0, false⟩], (0, 0), (0, 0), true, false⟩ : LoopPath).Nodes.getLast? =
      some ⟨0, false⟩ ∧
    0 ∉ ctxC2.latches ∧
    (∀ j < ctxC2.blockLen 0, ctxC2.isEqPoint (0, j) = false) := by
  refine ⟨by decide, rfl, rfl, by decide, by decide⟩

/-- Claim C2, amended: for every successfully analyzed loop, every
enumerated path is non-empty and never repeats a block, and it either
ends at a latch (`EndsAtBackedge = true`), or ends at a migration point
inside its final block (`EndsAtBackedge = false`), or — the case the
original claim missed — is truncated at its final block's terminator
because an in-loop successor lies in a sub-loop with an
eq-point-reaching exit (`EndsAtBackedge = false`). -/

theorem claim_C2_amended {ctx : LoopCtx} {fuel : Nat} {s : DFSState}
    (hctx : CtxOK ctx)
    (h : analyzeLoop ctx fuel false false = some (true, s)) :
    ∀ p ∈ s.CurPaths, p.Nodes ≠ [] ∧ (blocksOf p).Nodup ∧
      (endsAtLatch ctx p ∨ endsAtEqPoint ctx p ∨ truncAtSubLoop ctx p) := by
  have hinv := analyzeLoop_inv hctx h
  intro p hp
  obtain ⟨⟨h1, h2, _⟩, h3⟩ := hinv.1 p hp
  exact ⟨h1, h2, h3⟩

/-- Witness for the amended C2, instantiated at the truncated path of
`ctxC2`. -/

theorem claim_C2_amended_witness :
    (⟨[⟨0, false⟩], (0, 0), (0, 0), true, false⟩ : LoopPath).Nodes ≠ [] ∧
    (blocksOf ⟨[⟨0, false⟩], (0, 0), (0, 0), true, false⟩).Nodup ∧
    (endsAtLatch ctxC2 ⟨[⟨0, false⟩], (0, 0), (0, 0), true, false⟩ ∨
     endsAtEqPoint ctxC2 ⟨[⟨0, false⟩], (0, 0), (0, 0), true, false⟩ ∨
     truncAtSubLoop ctxC2 ⟨[⟨0, false⟩], (0, 0), (0, 0), true, false⟩) :=
  @claim_C2_amended ctxC2 30
    ⟨[], [⟨[⟨0, false⟩], (0, 0), (0, 0), true, false⟩,
          ⟨[⟨1, true⟩, ⟨2, false⟩], (1, 0), (2, 0), false, true⟩],
      [], [], [2], false, false⟩ ctxC2_ok (by decide)
    ⟨[⟨0, false⟩], (0, 0), (0, 0), true, false⟩ (by decide)

/-- Counterexample to claim C3 as stated: in the loop `ctxC3`,
`HasEqPointPath` holds block `1`, yet no enumerated path passing through
block `1` ends at a migration point (the mark stems from a point-started
path that reached the backedge). -/

theorem claim_C3_counterexample :
    analyzeLoop ctxC3 30 false false = some (true,
      ⟨[], [⟨[⟨0, false⟩], (0, 0), (0, 0), true, false⟩,
            ⟨[⟨0, false⟩, ⟨1, false⟩], (0, 1), (1, 0), false, true⟩],
        [], [], [0, 1], false, false⟩) ∧
    1 ∈ [0, 1] ∧
    ([⟨[⟨0, false⟩], (0, 0), (0, 0), true, false⟩,
      ⟨[⟨0, false⟩, ⟨1, false⟩], (0, 1), (1, 0), false, true⟩] : List LoopPath).all
      (fun p => !(ctxC3.isEqPoint p.End && decide ((1 : Nat) ∈ blocksOf p))) = true := by
  refine ⟨by decide, by decide, by decide⟩

/-- Claim C3, amended: for every successfully analyzed loop,
`hasSpanningPath[b]` holds iff some header-started enumerated path through
the non-opaque block `b` ends at a backedge (as the claim states), and
`hasEqPointPath[b]` holds iff some enumerated path through `b` ends at a
migration point **or** — the case the original claim missed — some
point-started path through `b` ends at a backedge. -/

theorem claim_C3_amended {ctx : LoopCtx} {fuel : Nat} {s : DFSState}
    (hctx : CtxOK ctx)
    (h : analyzeLoop ctx fuel false false = some (true, s)) :
    ∀ b, (b ∈ s.HasSpPath ↔ ∃ p ∈ s.CurPaths, SpEvidence ctx p b) ∧
         (b ∈ s.HasEqPointPath ↔ ∃ p ∈ s.CurPaths, EqEvidence ctx p b) := by
  have hinv := analyzeLoop_inv hctx h
  intro b
  exact ⟨hinv.2.1 b, hinv.2.2 b⟩

/-- Witness for the amended C3, instantiated at block `1` of `ctxC3`. -/

theorem claim_C3_amended_witness :
    (1 ∈ ([] : List Nat) ↔
      ∃ p ∈ ([⟨[⟨0, false⟩], (0, 0), (0, 0), true, false⟩,
              ⟨[⟨0, false⟩, ⟨1, false⟩], (0, 1), (1, 0), false, true⟩] : List LoopPath),
        SpEvidence ctxC3 p 1) ∧
    (1 ∈ [0, 1] ↔
      ∃ p ∈ ([⟨[⟨0, false⟩], (0, 0), (0, 0), true, false⟩,
              ⟨[⟨0, false⟩, ⟨1, false⟩], (0, 1), (1, 0), false, true⟩] : List LoopPath),
        EqEvidence ctxC3 p 1) :=
  @claim_C3_amended ctxC3 30
    ⟨[], [⟨[⟨0, false⟩], (0, 0), (0, 0), true, false⟩,
          ⟨[⟨0, false⟩, ⟨1, false⟩], (0, 1), (1, 0), false, true⟩],
      [], [], [0, 1], false, false⟩ ctxC3_ok (by decide) 1

theorem eqSuccs_plain {ctx : LoopCtx} {Start : Inst} {SAH : Bool} :
    ∀ fuel l s r s',
    (∀ sc ∈ l, ctx.contains sc = true → sc ≠ ctx.header →
      ctx.subLoopBlocks sc = false) →
    dfsEqSuccs ctx Start SAH fuel l s = some (r, s') → r = true →
    s' = { s with NewPaths := l.foldl (fun acc sc =>
      if ctx.contains sc = true ∧ sc ≠ ctx.header
      then pushIfNotPresent (sc, 0) acc else acc) s.NewPaths } := by
  intro fuel
  induction fuel with
  | zero =>
    intro l s r s' _ hrun
    simp [dfsEqSuccs] at hrun
  | succ fuel ih =>
    intro l s r s' hplain hrun hr
    match l with
    | [] =>
      simp only [dfsEqSuccs, Option.some.injEq, Prod.mk.injEq] at hrun
      rw [← hrun.2]
      simp
    | sc :: rest =>
      simp only [dfsEqSuccs] at hrun
      split at hrun
      · rename_i hcond
        have h1 := ih rest s r s'
          (fun x hx => hplain x (List.mem_cons_of_mem _ hx)) hrun hr
        rw [h1]
        simp only [List.foldl_cons]
        have hcf : ¬ (ctx.contains sc = true ∧ sc ≠ ctx.header) := by
          rcases hcond with hc | hc
          · rintro ⟨h3, _⟩; rw [h3] at hc; cases hc
          · rintro ⟨_, h4⟩; exact h4 hc
        rw [if_neg hcf]
      · rename_i hcond
        split at hrun
        · have hct : ctx.contains sc = true ∧ sc ≠ ctx.header := by
            have := not_or.mp hcond
            refine ⟨by simpa using this.1, this.2⟩
          have h1 := ih rest _ r s'
            (fun x hx => hplain x (List.mem_cons_of_mem _ hx)) hrun hr
          rw [h1]
          simp only [List.foldl_cons]
          rw [if_pos hct]
        · rename_i hsub
          have hct : ctx.contains sc = true ∧ sc ≠ ctx.header := by
            have := not_or.mp hcond
            refine ⟨by simpa using this.1, this.2⟩
          have := hplain sc (List.mem_cons_self _ _) hct.1 hct.2
          exact absurd this hsub

theorem mem_enqueue_fold {ctx : LoopCtx} :
    ∀ (l : List Nat) (np : List Inst) (j : Inst),
    j ∈ l.foldl (fun acc sc =>
      if ctx.contains sc = true ∧ sc ≠ ctx.header
      then pushIfNotPresent (sc, 0) acc else acc) np ↔
    j ∈ np ∨ ∃ sc ∈ l, ctx.contains sc = true ∧ sc ≠ ctx.header ∧ j = (sc, 0) := by
  intro l
  induction l with
  | nil => simp
  | cons sc rest ih =>
    intro np j
    simp only [List.foldl_cons]
    by_cases hc : ctx.contains sc = true ∧ sc ≠ ctx.header
    · rw [if_pos hc, ih]
      simp only [mem_pushIfNotPresent]
      constructor
      · rintro ((rfl | hj) | ⟨m, hm, h1, h2, rfl⟩)
        · exact Or.inr ⟨sc, List.mem_cons_self _ _, hc.1, hc.2, rfl⟩
        · exact Or.inl hj
        · exact Or.inr ⟨m, List.mem_cons_of_mem _ hm, h1, h2, rfl⟩
      · rintro (hj | ⟨m, hm, h1, h2, rfl⟩)
        · exact Or.inl (Or.inr hj)
        · rcases List.mem_cons.mp hm with rfl | hm
          · exact Or.inl (Or.inl rfl)
          · exact Or.inr ⟨m, hm, h1, h2, rfl⟩
    · rw [if_neg hc, ih]
      constructor
      · rintro (hj | ⟨m, hm, h1, h2, rfl⟩)
        · exact Or.inl hj
        · exact Or.inr ⟨m, List.mem_cons_of_mem _ hm, h1, h2, rfl⟩
      · rintro (hj | ⟨m, hm, h1, h2, rfl⟩)
        · exact Or.inl hj
        · rcases List.mem_cons.mp hm with rfl | hm
          · exact absurd ⟨h1, h2⟩ hc
          · exact Or.inr ⟨m, hm, h1, h2, rfl⟩

/-- Counterexample to claim C4 as stated: in `ctxC4`, when the search at
`(1, 0)` terminates at the migration point that is block `1`'s
terminator, the first operation `(2, 0)` of the latch block `2` **is**
enqueued as a new search start, although the claim's description
excludes latches — the code (LoopPaths.cpp line 584) skips only the
header; the filtered set prescribed by the claim is empty. -/

theorem claim_C4_counterexample :
    loopDFS ctxC4 (1, 0) false 5 (1, 0) ⟨[], [], [], [], [], false, false⟩ =
      some (true, ⟨[], [⟨[⟨1, false⟩], (1, 0), (1, 0), false, false⟩],
        [(2, 0)], [], [1], false, false⟩) ∧
    2 ∈ ctxC4.latches ∧
    ((ctxC4.succs 1).filter (fun sc => ctxC4.contains sc &&
      decide (sc ≠ ctxC4.header) && decide (sc ∉ ctxC4.latches))) = [] := by
  refine ⟨by decide, by decide, by decide⟩

/-- Claim C4, amended: when a path terminates at a migration point that
is its block's terminator and no in-loop non-header successor lies in a
sub-loop, the path ending at the migration point is recorded and the new
search starts enqueued (deduplicated against already-queued starts) are
exactly the first operations of the in-loop successor blocks that are
not the loop header — latches, contrary to the original claim, are not
excluded. -/

theorem claim_C4_amended {ctx : LoopCtx} {Start E : Inst} {SAH : Bool}
    {fuel : Nat} {I : Inst} {s : DFSState} {r : Bool} {s' : DFSState}
    (hsub : ctx.subLoopBlocks I.1 = false)
    (hpc : pathContains s.PathNodes I.1 = false)
    (heq : hasEquivalencePoint ctx I = some E)
    (hterm : isTerm ctx E = true)
    (hplain : ∀ sc ∈ ctx.succs I.1, ctx.contains sc = true → sc ≠ ctx.header →
      ctx.subLoopBlocks sc = false)
    (hrun : loopDFS ctx Start SAH (fuel + 1) I s = some (r, s')) (hr : r = true) :
    s'.CurPaths = s.CurPaths ++ [⟨s.PathNodes ++ [⟨I.1, false⟩], Start, E, SAH, false⟩] ∧
    ∀ j, j ∈ s'.NewPaths ↔ j ∈ s.NewPaths ∨
      ∃ sc ∈ ctx.succs I.1, ctx.contains sc = true ∧ sc ≠ ctx.header ∧ j = (sc, 0) := by
  obtain ⟨pn, cp, np, sp, eqm, dc, tm⟩ := s
  simp only at hpc
  simp only [loopDFS] at hrun
  rw [if_pos hsub] at hrun
  rw [if_neg (by simp [hpc])] at hrun
  split at hrun
  · rename_i eqP hEq
    have hEe : eqP = E := by
      rw [heq] at hEq
      exact (Option.some.inj hEq).symm
    subst hEe
    split at hrun
    · simp only [Option.some.injEq, Prod.mk.injEq] at hrun
      rw [← hrun.1] at hr
      cases hr
    · split at hrun
      · cases hrun
      · simp only [Option.some.injEq, Prod.mk.injEq] at hrun
        rw [← hrun.1] at hr
        cases hr
      · rename_i s4 hif
        simp only [Option.some.injEq, Prod.mk.injEq] at hrun
        obtain ⟨hr1, hr2⟩ := hrun
        rw [if_neg (by simp [hterm])] at hif
        have h4 := eqSuccs_plain fuel (ctx.succs I.1) _ true s4 hplain hif rfl
        rw [← hr2, h4]
        constructor
        · rfl
        · intro j
          exact mem_enqueue_fold (ctx.succs I.1) np j
  · rename_i hEq
    rw [heq] at hEq
    cases hEq

/-- Witness for the amended C4: the concrete step of `ctxC4` at `(1, 0)`,
whose migration point is the terminator of block `1`; the latch front
`(2, 0)` is enqueued. -/

theorem claim_C4_amended_witness :
    (⟨[], [⟨[⟨1, false⟩], (1, 0), (1, 0), false, false⟩],
      [(2, 0)], [], [1], false, false⟩ : DFSState).CurPaths =
      [] ++ [⟨[] ++ [⟨1, false⟩], (1, 0), (1, 0), false, false⟩] ∧
    (((2, 0) : Inst) ∈ (⟨[], [⟨[⟨1, false⟩], (1, 0), (1, 0), false, false⟩],
      [(2, 0)], [], [1], false, false⟩ : DFSState).NewPaths ↔
      ((2, 0) : Inst) ∈ ([] : List Inst) ∨
      ∃ sc ∈ ctxC4.succs 1, ctxC4.contains sc = true ∧ sc ≠ ctxC4.header ∧
        ((2, 0) : Inst) = (sc, 0)) :=
  ⟨(@claim_C4_amended ctxC4 (1, 0) (1, 0) false 4 (1, 0)
      ⟨[], [], [], [], [], false, false⟩ true
      ⟨[], [⟨[⟨1, false⟩], (1, 0), (1, 0), false, false⟩],
        [(2, 0)], [], [1], false, false⟩
      (by decide) (by decide) (by decide) (by decide) (by decide) (by decide) rfl).1,
   (@claim_C4_amended ctxC4 (1, 0) (1, 0) false 4 (1, 0)
      ⟨[], [], [], [], [], false, false⟩ true
      ⟨[], [⟨[⟨1, false⟩], (1, 0), (1, 0), false, false⟩],
        [(2, 0)], [], [1], false, false⟩
      (by decide) (by decide) (by decide) (by decide) (by decide) (by decide) rfl).2 (2, 0)⟩

/-! ### State-capture instrumentation (`InsertStackMaps`) -/

theorem findIdx?_spec {α : Type} (p : α → Bool) :
    ∀ (l : List α) (i j : Nat), List.findIdx? p l i = some j →
      i ≤ j ∧ ∃ m, l[j - i]? = some m ∧ p m = true := by
  intro l
  induction l with
  | nil => intro i j h; simp [List.findIdx?] at h
  | cons x xs ih =>
    intro i j h
    rw [List.findIdx?_cons] at h
    by_cases hp : p x
    · rw [if_pos hp] at h
      simp only [Option.some.injEq] at h
      subst h
      refine ⟨le_refl _, x, ?_, hp⟩
      simp
    · rw [if_neg hp] at h
      obtain ⟨hij, m, hm, hpm⟩ := ih (i + 1) j h
      refine ⟨by omega, m, ?_, hpm⟩
      have hji : j - i = (j - (i + 1)) + 1 := by omega
      rw [hji, List.getElem?_cons_succ]
      exact hm

theorem findMarkerFrom_none {l : List Instr} {k : Nat}
    (h : findMarkerFrom l k = none) : ∀ m ∈ l.drop k, isMarkerCall m = false := by
  unfold findMarkerFrom at h
  split at h
  · cases h
  · rename_i hn
    exact fun m hm => List.findIdx?_eq_none_iff.mp hn m hm

theorem findMarkerFrom_some {l : List Instr} {k j : Nat}
    (h : findMarkerFrom l k = some j) :
    k ≤ j ∧ j < l.length ∧ ∃ m, l[j]? = some m ∧ isMarkerCall m = true := by
  unfold findMarkerFrom at h
  split at h
  · rename_i j' hj'
    simp only [Option.some.injEq] at h
    subst h
    obtain ⟨_, m, hm, hpm⟩ := findIdx?_spec isMarkerCall (l.drop k) 0 j' hj'
    rw [Nat.sub_zero, List.getElem?_drop] at hm
    refine ⟨Nat.le_add_right _ _, ?_, m, hm, hpm⟩
    by_contra hge
    rw [List.getElem?_eq_none (by omega)] at hm
    cases hm
  · cases h

theorem filter_eraseIdx_marker :
    ∀ (l : List Instr) (j : Nat) (m : Instr),
    l[j]? = some m → isMarkerCall m = true →
    (l.eraseIdx j).filter (fun i => !isMarkerCall i) =
      l.filter (fun i => !isMarkerCall i) := by
  intro l
  induction l with
  | nil => intro j m h; simp at h
  | cons x xs ih =>
    intro j m h hm
    cases j with
    | zero =>
      simp only [List.getElem?_cons_zero, Option.some.injEq] at h
      subst h
      simp [List.eraseIdx, List.filter_cons, hm]
    | succ j =>
      simp only [List.getElem?_cons_succ] at h
      show (x :: xs.eraseIdx j).filter _ = _
      rw [List.filter_cons, List.filter_cons, ih j m h hm]

theorem mem_of_getElem? {α : Type} : ∀ {l : List α} {j : Nat} {m : α},
    l[j]? = some m → m ∈ l := by
  intro l
  induction l with
  | nil => intro j m h; simp at h
  | cons x xs ih =>
    intro j m h
    cases j with
    | zero =>
      simp only [List.getElem?_cons_zero, Option.some.injEq] at h
      subst h
      exact List.mem_cons_self _ _
    | succ j =>
      simp only [List.getElem?_cons_succ] at h
      exact List.mem_cons_of_mem _ (ih h)

theorem removeScan_eq_filter :
    ∀ (f : Nat) (l : List Instr) (k : Nat), l.length < f → k ≤ 1 →
    (∀ hd ∈ l.head?, isMarkerCall hd = false) →
    removeScanF f l k =
      (l.filter (fun i => !isMarkerCall i), l.any isMarkerCall) := by
  intro f
  induction f with
  | zero => intro l k h; omega
  | succ f ih =>
    intro l k hlen hk hhd
    simp only [removeScanF]
    cases hF : findMarkerFrom l k with
    | none =>
      have hnone := findMarkerFrom_none hF
      have hnom : ∀ m ∈ l, isMarkerCall m = false := by
        intro m hm
        match l, hm with
        | x :: xs, hm =>
          rcases List.mem_cons.mp hm with rfl | hm2
          · cases k with
            | zero => exact hnone m hm
            | succ k0 => exact hhd m rfl
          · cases k with
            | zero => exact hnone m hm
            | succ k0 =>
              have hk1 : k0 = 0 := by omega
              subst hk1
              exact hnone m (by simpa using hm2)
      show (l, false) = _
      have h1 : l.filter (fun i => !isMarkerCall i) = l :=
        List.filter_eq_self.mpr (fun a ha => by simp [hnom a ha])
      have h2 : l.any isMarkerCall = false :=
        List.any_eq_false.mpr (fun a ha => by simp [hnom a ha])
      rw [h1, h2]
    | some j =>
      obtain ⟨hkj, hjl, m, hm, hmm⟩ := findMarkerFrom_some hF
      show ((removeScanF f (l.eraseIdx j) 1).1, true) = _
      match l, hjl, hm, hhd, hlen with
      | x :: xs, hjl, hm, hhd, hlen =>
        have hxm : isMarkerCall x = false := hhd x rfl
        have hj1 : 1 ≤ j := by
          by_contra hj0
          have hj0' : j = 0 := by omega
          subst hj0'
          simp only [List.getElem?_cons_zero, Option.some.injEq] at hm
          subst hm
          rw [hxm] at hmm
          cases hmm
        match j, hj1, hjl, hm with
        | j' + 1, _, hjl, hm =>
          have herase : (x :: xs).eraseIdx (j' + 1) = x :: xs.eraseIdx j' := rfl
          rw [herase]
          have hlen2 : (x :: xs.eraseIdx j').length < f := by
            have hjx : j' < xs.length := by simpa using hjl
            have := List.length_eraseIdx_of_lt hjx
            simp only [List.length_cons] at hlen ⊢
            omega
          rw [ih (x :: xs.eraseIdx j') 1 hlen2 (by omega) (fun hd hhd2 => by
            simp only [List.head?_cons, Option.mem_def, Option.some.injEq] at hhd2
            cases hhd2
            exact hxm)]
          have hfe : (x :: xs.eraseIdx j').filter (fun i => !isMarkerCall i) =
              (x :: xs).filter (fun i => !isMarkerCall i) := by
            rw [← herase]
            exact filter_eraseIdx_marker (x :: xs) (j' + 1) m hm hmm
          rw [hfe]
          have hany : (x :: xs).any isMarkerCall = true :=
            List.any_eq_true.mpr ⟨m, mem_of_getElem? hm, hmm⟩
          rw [hany]

theorem removeOldBlock_flag (l : List Instr) :
    (removeOldBlock l).2 = l.any isMarkerCall := by
  unfold removeOldBlock
  simp only [removeScanF]
  cases hF : findMarkerFrom l 0 with
  | none =>
    have hnone := findMarkerFrom_none hF
    show false = _
    symm
    rw [List.any_eq_false]
    intro a ha
    simp [hnone a ha]
  | some j =>
    obtain ⟨_, _, m, hm, hmm⟩ := findMarkerFrom_some hF
    show true = _
    symm
    exact List.any_eq_true.mpr ⟨m, mem_of_getElem? hm, hmm⟩

theorem removeOldFunc_flag (f : Func) :
    (removeOldFunc f).2 = f.blocks.any (fun b => b.any isMarkerCall) := by
  show (f.blocks.map removeOldBlock).any Prod.snd = _
  induction f.blocks with
  | nil => rfl
  | cons b bs ih =>
    simp only [List.map_cons, List.any_cons, ih, removeOldBlock_flag]

theorem removeOldStackmaps_flag (M : PModule) :
    (removeOldStackmaps M).2 = hasMarkerCall M := by
  show (M.funcs.map removeOldFunc).any Prod.snd = _
  unfold hasMarkerCall
  induction M.funcs with
  | nil => rfl
  | cons f fs ih =>
    simp only [List.map_cons, List.any_cons, ih, removeOldFunc_flag]

theorem addSMDeclaration_flag (M : PModule) :
    (addSMDeclaration M).2 = !hasSMDecl M := by
  unfold addSMDeclaration
  split <;> rename_i h <;> simp [h]

theorem addSMDeclaration_markers (M : PModule) :
    hasMarkerCall (addSMDeclaration M).1 = hasMarkerCall M := by
  unfold addSMDeclaration
  split
  · rfl
  · show hasMarkerCall ⟨M.funcs ++ [smDeclFunc]⟩ = _
    unfold hasMarkerCall
    rw [List.any_append]
    simp [smDeclFunc]

/-- Counterexample to claim C6 as stated: on an empty module the pass
inserts no marker (`numInstrumented = 0`) but still returns `true`,
because adding the missing stackmap declaration alone sets the modified
flag (InsertStackMaps.cpp line 103). -/

theorem claim_C6_counterexample :
    (runOnModule collabTriv false ⟨[]⟩).modified = true ∧
    (runOnModule collabTriv false ⟨[]⟩).numInstrumented = 0 := by
  refine ⟨by decide, by decide⟩

/-- Claim C6, amended: the pass's boolean result is true iff the stackmap
declaration was missing (and hence added), or the module contained stale
marker calls (which were removed), or at least one marker call was
inserted during the run. -/

theorem claim_C6_amended (c : Collab) (noLive : Bool) (M : PModule) :
    (runOnModule c noLive M).modified =
      (!hasSMDecl M || hasMarkerCall M ||
        decide (0 < (runOnModule c noLive M).numInstrumented)) := by
  rw [show (runOnModule c noLive M).modified =
      ((addSMDeclaration M).2 || (removeOldStackmaps (addSMDeclaration M).1).2 ||
        decide (0 < (runOnModule c noLive M).numInstrumented)) from rfl]
  rw [addSMDeclaration_flag, removeOldStackmaps_flag, addSMDeclaration_markers]

theorem isMarkerCall_mkMarker (sid : Nat) (live : List Val) :
    isMarkerCall (mkMarker sid live) = true := by
  simp [isMarkerCall, mkMarker]

theorem instrumentBlock_emits_ids (c : Collab) (nl : Bool)
    (hi ha : List (Nat × List Nat)) : ∀ (b : List Instr) (sid : Nat),
    (instrumentBlock c nl hi ha b sid).emits.map Prod.fst =
      List.range' sid (instrumentBlock c nl hi ha b sid).emits.length 1 ∧
    (instrumentBlock c nl hi ha b sid).sid =
      sid + (instrumentBlock c nl hi ha b sid).emits.length := by
  intro b
  induction b with
  | nil => intro sid; exact ⟨rfl, rfl⟩
  | cons i rest ih =>
    intro sid
    simp only [instrumentBlock]
    split
    · split
      · exact ih sid
      · obtain ⟨ih1, ih2⟩ := ih (sid + 1)
        constructor
        · show sid :: (instrumentBlock c nl hi ha rest (sid + 1)).emits.map Prod.fst = _
          rw [ih1]
          show _ = List.range' sid ((instrumentBlock c nl hi ha rest (sid + 1)).emits.length + 1) 1
          rw [List.range'_succ]
        · show (instrumentBlock c nl hi ha rest (sid + 1)).sid = _
          rw [ih2]
          simp only [List.length_cons]
          omega
    · exact ih sid

theorem instrumentBlocks_emits_ids (c : Collab) (nl : Bool)
    (hi ha : List (Nat × List Nat)) : ∀ (bs : List (List Instr)) (sid : Nat),
    (instrumentBlocks c nl hi ha bs sid).emits.map Prod.fst =
      List.range' sid (instrumentBlocks c nl hi ha bs sid).emits.length 1 ∧
    (instrumentBlocks c nl hi ha bs sid).sid =
      sid + (instrumentBlocks c nl hi ha bs sid).emits.length := by
  intro bs
  induction bs with
  | nil => intro sid; exact ⟨rfl, rfl⟩
  | cons b rest ih =>
    intro sid
    simp only [instrumentBlocks]
    obtain ⟨hb1, hb2⟩ := instrumentBlock_emits_ids c nl hi ha b sid
    obtain ⟨ih1, ih2⟩ := ih (instrumentBlock c nl hi ha b sid).sid
    constructor
    · show ((instrumentBlock c nl hi ha b sid).emits ++
        (instrumentBlocks c nl hi ha rest (instrumentBlock c nl hi ha b sid).sid).emits).map
          Prod.fst = _
      rw [List.map_append, hb1, ih1, hb2, List.length_append]
      have hra := List.range'_append sid
        ((instrumentBlock c nl hi ha b sid).emits.length)
        ((instrumentBlocks c nl hi ha rest
          (sid + (instrumentBlock c nl hi ha b sid).emits.length)).emits.length) 1
      simp only [Nat.one_mul] at hra
      rw [hra, Nat.add_comm]
    · show (instrumentBlocks c nl hi ha rest (instrumentBlock c nl hi ha b sid).sid).sid = _
      rw [ih2, hb2]
      simp only [List.length_append]
      omega

theorem instrumentBlock_noLive_emits (c : Collab)
    (hi ha : List (Nat × List Nat)) : ∀ (b : List Instr) (sid : Nat),
    ∀ e ∈ (instrumentBlock c true hi ha b sid).emits, e.2 = [] := by
  intro b
  induction b with
  | nil => intro sid e he; simp [instrumentBlock] at he
  | cons i rest ih =>
    intro sid e he
    simp only [instrumentBlock] at he
    split at he
    · split at he
      · exact ih sid e he
      · simp only [List.mem_cons] at he
        rcases he with rfl | he
        · rfl
        · exact ih (sid + 1) e he
    · exact ih sid e he

theorem instrumentBlocks_noLive_emits (c : Collab)
    (hi ha : List (Nat × List Nat)) : ∀ (bs : List (List Instr)) (sid : Nat),
    ∀ e ∈ (instrumentBlocks c true hi ha bs sid).emits, e.2 = [] := by
  intro bs
  induction bs with
  | nil => intro sid e he; simp [instrumentBlocks] at he
  | cons b rest ih =>
    intro sid e he
    simp only [instrumentBlocks] at he
    rw [List.mem_append] at he
    rcases he with he | he
    · exact instrumentBlock_noLive_emits c hi ha b sid e he
    · exact ih _ e he

theorem instrumentBlock_markers_shape (c : Collab) (nl : Bool)
    (hi ha : List (Nat × List Nat)) : ∀ (b : List Instr) (sid : Nat),
    (∀ i ∈ b, isMarkerCall i = false) →
    ∀ i ∈ (instrumentBlock c nl hi ha b sid).insts, isMarkerCall i = true →
      ∃ k lv, i = mkMarker k lv ∧ (nl = true → lv = []) := by
  intro b
  induction b with
  | nil => intro sid _ i hi2; simp [instrumentBlock] at hi2
  | cons j rest ih =>
    intro sid hfree i hi2 him
    simp only [instrumentBlock] at hi2
    split at hi2
    · split at hi2
      · rcases List.mem_cons.mp hi2 with rfl | hi2
        · rw [hfree i (List.mem_cons_self _ _)] at him
          cases him
        · exact ih sid (fun x hx => hfree x (List.mem_cons_of_mem _ hx)) i hi2 him
      · rcases List.mem_cons.mp hi2 with rfl | hi2
        · rw [hfree i (List.mem_cons_self _ _)] at him
          cases him
        · rcases List.mem_cons.mp hi2 with rfl | hi2
          · refine ⟨sid, _, rfl, fun hnl => ?_⟩
            simp [hnl]
          · exact ih (sid + 1) (fun x hx => hfree x (List.mem_cons_of_mem _ hx)) i hi2 him
    · rcases List.mem_cons.mp hi2 with rfl | hi2
      · rw [hfree i (List.mem_cons_self _ _)] at him
        cases him
      · exact ih sid (fun x hx => hfree x (List.mem_cons_of_mem _ hx)) i hi2 him

theorem any_map_congr {α β : Type} (l : List α) (g : α → β)
    (p : β → Bool) (q : α → Bool) (h : ∀ a ∈ l, p (g a) = q a) :
    (l.map g).any p = l.any q := by
  induction l with
  | nil => rfl
  | cons x xs ih =>
    simp only [List.map_cons, List.any_cons]
    rw [h x (List.mem_cons_self _ _), ih (fun a ha => h a (List.mem_cons_of_mem _ ha))]

theorem removeOldBlock_markerFree (l : List Instr)
    (h : ∀ i ∈ l, isMarkerCall i = false) : removeOldBlock l = (l, false) := by
  unfold removeOldBlock
  rw [removeScan_eq_filter (l.length + 1) l 0 (by omega) (by omega)
    (fun hd hm => h hd (List.mem_of_mem_head? hm))]
  rw [List.filter_eq_self.mpr (fun a ha => by simp [h a ha]),
    List.any_eq_false.mpr (fun a ha => by simp [h a ha])]

theorem removeOldFunc_markerFree (f : Func)
    (h : ∀ b ∈ f.blocks, ∀ i ∈ b, isMarkerCall i = false) :
    removeOldFunc f = (f, false) := by
  have h1 : (removeOldFunc f).1 = f := by
    show { f with blocks := (f.blocks.map removeOldBlock).map Prod.fst } = f
    have h2 : (f.blocks.map removeOldBlock).map Prod.fst = f.blocks := by
      rw [List.map_map]
      have h3 : f.blocks.map (Prod.fst ∘ removeOldBlock) = f.blocks.map (fun b => b) :=
        List.map_congr_left (fun b hb => by
          show (removeOldBlock b).1 = b
          rw [removeOldBlock_markerFree b (h b hb)])
      rw [h3, List.map_id']
    rw [h2]
  have h2 : (removeOldFunc f).2 = false := by
    rw [removeOldFunc_flag, List.any_eq_false]
    intro b hb
    simp only [Bool.not_eq_true, List.any_eq_false]
    intro i hi2
    simp [h b hb i hi2]
  calc removeOldFunc f = ((removeOldFunc f).1, (removeOldFunc f).2) := rfl
    _ = (f, false) := by rw [h1, h2]

theorem removeOldStackmaps_markerFree (M : PModule) (h : MarkerFree M) :
    removeOldStackmaps M = (M, false) := by
  have h1 : (removeOldStackmaps M).1 = M := by
    show (⟨(M.funcs.map removeOldFunc).map Prod.fst⟩ : PModule) = M
    have h2 : (M.funcs.map removeOldFunc).map Prod.fst = M.funcs := by
      rw [List.map_map]
      have h3 : M.funcs.map (Prod.fst ∘ removeOldFunc) = M.funcs.map (fun f => f) :=
        List.map_congr_left (fun f hf => by
          show (removeOldFunc f).1 = f
          rw [removeOldFunc_markerFree f (h f hf)])
      rw [h3, List.map_id']
    rw [h2]
  have h2 : (removeOldStackmaps M).2 = false := by
    rw [removeOldStackmaps_flag]
    unfold hasMarkerCall
    rw [List.any_eq_false]
    intro f hf
    simp only [Bool.not_eq_true, List.any_eq_false]
    intro b hb i hi2
    simp [h f hf b hb i hi2]
  calc removeOldStackmaps M = ((removeOldStackmaps M).1, (removeOldStackmaps M).2) := rfl
    _ = (M, false) := by rw [h1, h2]

theorem instrumentBlock_head (c : Collab) (nl : Bool)
    (hi ha : List (Nat × List Nat)) (b : List Instr) (sid : Nat) :
    (instrumentBlock c nl hi ha b sid).insts.head? = b.head? := by
  cases b with
  | nil => rfl
  | cons i rest =>
    simp only [instrumentBlock]
    split
    · split
      · rfl
      · rfl
    · rfl

theorem instrumentBlock_filter (c : Collab) (nl : Bool)
    (hi ha : List (Nat × List Nat)) : ∀ (b : List Instr) (sid : Nat),
    (∀ i ∈ b, isMarkerCall i = false) →
    (instrumentBlock c nl hi ha b sid).insts.filter (fun i => !isMarkerCall i) = b := by
  intro b
  induction b with
  | nil => intro sid _; rfl
  | cons i rest ih =>
    intro sid h
    have hif : isMarkerCall i = false := h i (List.mem_cons_self _ _)
    have hrest := fun x hx => h x (List.mem_cons_of_mem _ hx)
    simp only [instrumentBlock]
    split
    · split
      · show (i :: (instrumentBlock c nl hi ha rest sid).insts).filter _ = _
        rw [List.filter_cons, hif]
        show i :: (instrumentBlock c nl hi ha rest sid).insts.filter _ = _
        rw [ih sid hrest]
      · show (i :: mkMarker sid _ ::
          (instrumentBlock c nl hi ha rest (sid + 1)).insts).filter _ = _
        rw [List.filter_cons, hif]
        show i :: (mkMarker sid _ ::
          (instrumentBlock c nl hi ha rest (sid + 1)).insts).filter _ = _
        rw [List.filter_cons, isMarkerCall_mkMarker]
        show i :: (instrumentBlock c nl hi ha rest (sid + 1)).insts.filter _ = _
        rw [ih (sid + 1) hrest]
    · show (i :: (instrumentBlock c nl hi ha rest sid).insts).filter _ = _
      rw [List.filter_cons, hif]
      show i :: (instrumentBlock c nl hi ha rest sid).insts.filter _ = _
      rw [ih sid hrest]

theorem removeOldBlock_instr (c : Collab) (nl : Bool)
    (hi ha : List (Nat × List Nat)) (b : List Instr) (sid : Nat)
    (h : ∀ i ∈ b, isMarkerCall i = false) :
    (removeOldBlock (instrumentBlock c nl hi ha b sid).insts).1 = b := by
  unfold removeOldBlock
  rw [removeScan_eq_filter _ _ 0 (by omega) (by omega) (fun hd hm => by
    rw [instrumentBlock_head] at hm
    exact h hd (List.mem_of_mem_head? hm))]
  exact instrumentBlock_filter c nl hi ha b sid h

theorem instrumentBlocks_roundtrip (c : Collab) (nl : Bool)
    (hi ha : List (Nat × List Nat)) : ∀ (bs : List (List Instr)) (sid : Nat),
    (∀ b ∈ bs, ∀ i ∈ b, isMarkerCall i = false) →
    (instrumentBlocks c nl hi ha bs sid).blocks.map (fun b => (removeOldBlock b).1) = bs := by
  intro bs
  induction bs with
  | nil => intro sid _; rfl
  | cons b rest ih =>
    intro sid h
    simp only [instrumentBlocks, List.map_cons]
    rw [removeOldBlock_instr c nl hi ha b sid (h b (List.mem_cons_self _ _)),
      ih _ (fun x hx => h x (List.mem_cons_of_mem _ hx))]

theorem removeOldFunc_instrumentFunc (c : Collab) (nl : Bool) (f : Func)
    (h : ∀ b ∈ f.blocks, ∀ i ∈ b, isMarkerCall i = false) :
    (removeOldFunc (instrumentFunc c nl f).1).1 = f := by
  show { (instrumentFunc c nl f).1 with
    blocks := ((instrumentFunc c nl f).1.blocks.map removeOldBlock).map Prod.fst } = f
  have h1 : ((instrumentFunc c nl f).1.blocks.map removeOldBlock).map Prod.fst = f.blocks := by
    rw [List.map_map]
    show (instrumentBlocks c nl (getHiddenVals f).1 (getHiddenVals f).2
      f.blocks 0).blocks.map (Prod.fst ∘ removeOldBlock) = f.blocks
    exact instrumentBlocks_roundtrip c nl _ _ f.blocks 0 h
  rw [h1]
  rfl

theorem runOnModule_module (c : Collab) (nl : Bool) (M : PModule) :
    (runOnModule c nl M).module.funcs =
      (removeOldStackmaps (addSMDeclaration M).1).1.funcs.map
        (fun f => if f.isDeclaration then f else (instrumentFunc c nl f).1) := by
  show ((removeOldStackmaps (addSMDeclaration M).1).1.funcs.map (fun f =>
      if f.isDeclaration then (f, 0, ([] : List (Nat × List Val)))
      else instrumentFunc c nl f)).map (fun o => o.1) = _
  rw [List.map_map]
  apply List.map_congr_left
  intro f _
  show (if f.isDeclaration = true then (f, 0, ([] : List (Nat × List Val)))
      else instrumentFunc c nl f).1 = _
  by_cases hd : f.isDeclaration = true <;> simp [hd]

theorem removeOld_then_funcs (M' : PModule) :
    (removeOldStackmaps M').1.funcs = M'.funcs.map (fun f => (removeOldFunc f).1) := by
  show (M'.funcs.map removeOldFunc).map Prod.fst = _
  rw [List.map_map]
  rfl

theorem addSMDeclaration_markerFree {M : PModule} (h : MarkerFree M) :
    MarkerFree (addSMDeclaration M).1 := by
  unfold addSMDeclaration
  split
  · exact h
  · intro f hf
    rcases List.mem_append.mp hf with hf | hf
    · exact h f hf
    · simp only [List.mem_singleton] at hf
      subst hf
      intro b hb
      simp [smDeclFunc] at hb

theorem hasSMDecl_addSMDeclaration (M : PModule) :
    hasSMDecl (addSMDeclaration M).1 = true := by
  unfold addSMDeclaration
  split
  · rename_i hd
    simpa using hd
  · show hasSMDecl ⟨M.funcs ++ [smDeclFunc]⟩ = true
    unfold hasSMDecl
    rw [List.any_append]
    simp [smDeclFunc]

theorem instrumentFunc_fname (c : Collab) (nl : Bool) (f : Func) :
    (instrumentFunc c nl f).1.fname = f.fname := rfl

theorem instrumentFunc_isDecl (c : Collab) (nl : Bool) (f : Func) :
    (instrumentFunc c nl f).1.isDeclaration = f.isDeclaration := rfl

/-- Claim C8: re-running instrumentation on the already-instrumented
module (with the same liveness/dominance collaborators) is idempotent:
the second run reproduces the same module, the same number of inserted
markers, the same per-routine emission lists (site ids and ordered live
lists), and hence the same marker count.  The input module is assumed
free of stale marker calls, i.e. the first run is the run that
instruments it. -/

theorem claim_C8_idempotent (c : Collab) (nl : Bool) (M : PModule)
    (h : MarkerFree M) :
    (runOnModule c nl (runOnModule c nl M).module).module =
      (runOnModule c nl M).module ∧
    (runOnModule c nl (runOnModule c nl M).module).numInstrumented =
      (runOnModule c nl M).numInstrumented ∧
    (runOnModule c nl (runOnModule c nl M).module).emissions =
      (runOnModule c nl M).emissions ∧
    countMarkers (runOnModule c nl (runOnModule c nl M).module).module =
      countMarkers (runOnModule c nl M).module := by
  have hM1free : MarkerFree (addSMDeclaration M).1 := addSMDeclaration_markerFree h
  have hclean1 : removeOldStackmaps (addSMDeclaration M).1 =
      ((addSMDeclaration M).1, false) :=
    removeOldStackmaps_markerFree _ hM1free
  have hfuncs1 : (runOnModule c nl M).module.funcs =
      (addSMDeclaration M).1.funcs.map
        (fun f => if f.isDeclaration then f else (instrumentFunc c nl f).1) := by
    rw [runOnModule_module, hclean1]
  have hA : hasSMDecl (runOnModule c nl M).module = true := by
    unfold hasSMDecl
    rw [hfuncs1]
    rw [any_map_congr _ _ _ (fun f => decide (f.fname = SMName)) (fun f hf => by
      by_cases hd : f.isDeclaration = true <;> simp [hd, instrumentFunc_fname])]
    exact hasSMDecl_addSMDeclaration M
  have hA2 : addSMDeclaration (runOnModule c nl M).module =
      ((runOnModule c nl M).module, false) := by
    unfold addSMDeclaration
    rw [hA]
    simp
  have key : (removeOldStackmaps (addSMDeclaration (runOnModule c nl M).module).1).1 =
      (removeOldStackmaps (addSMDeclaration M).1).1 := by
    rw [hA2, hclean1]
    have hfe : (removeOldStackmaps (runOnModule c nl M).module).1.funcs =
        (addSMDeclaration M).1.funcs := by
      rw [removeOld_then_funcs, hfuncs1, List.map_map]
      have hpt : (addSMDeclaration M).1.funcs.map
          ((fun f => (removeOldFunc f).1) ∘
            (fun f => if f.isDeclaration then f else (instrumentFunc c nl f).1)) =
          (addSMDeclaration M).1.funcs.map (fun f => f) := by
        apply List.map_congr_left
        intro f hf
        show (removeOldFunc (if f.isDeclaration = true then f
          else (instrumentFunc c nl f).1)).1 = f
        by_cases hd : f.isDeclaration = true
        · rw [if_pos hd]
          rw [removeOldFunc_markerFree f (hM1free f hf)]
        · rw [if_neg hd]
          exact removeOldFunc_instrumentFunc c nl f (hM1free f hf)
      rw [hpt, List.map_id']
    calc (removeOldStackmaps (runOnModule c nl M).module).1
        = ⟨(removeOldStackmaps (runOnModule c nl M).module).1.funcs⟩ := rfl
      _ = ⟨(addSMDeclaration M).1.funcs⟩ := by rw [hfe]
      _ = (addSMDeclaration M).1 := rfl
  have e1 : ∀ M' : PModule, (runOnModule c nl M').module =
      ⟨((removeOldStackmaps (addSMDeclaration M').1).1.funcs.map (fun f =>
        if f.isDeclaration then (f, 0, ([] : List (Nat × List Val)))
        else instrumentFunc c nl f)).map (fun o => o.1)⟩ := fun _ => rfl
  have e2 : ∀ M' : PModule, (runOnModule c nl M').numInstrumented =
      (((removeOldStackmaps (addSMDeclaration M').1).1.funcs.map (fun f =>
        if f.isDeclaration then (f, 0, ([] : List (Nat × List Val)))
        else instrumentFunc c nl f)).map (fun o => o.2.1)).foldl (· + ·) 0 := fun _ => rfl
  have e3 : ∀ M' : PModule, (runOnModule c nl M').emissions =
      ((removeOldStackmaps (addSMDeclaration M').1).1.funcs.map (fun f =>
        if f.isDeclaration then (f, 0, ([] : List (Nat × List Val)))
        else instrumentFunc c nl f)).filterMap (fun o =>
          if o.1.isDeclaration then none else some (o.1.fname, o.2.2)) := fun _ => rfl
  have hmod : (runOnModule c nl (runOnModule c nl M).module).module =
      (runOnModule c nl M).module := by
    rw [e1 (runOnModule c nl M).module, key, ← e1 M]
  exact ⟨hmod, by rw [e2 (runOnModule c nl M).module, key, ← e2 M],
    by rw [e3 (runOnModule c nl M).module, key, ← e3 M], by rw [hmod]⟩

/-- Witness for C8 at a concrete marker-free one-routine module. -/

theorem claim_C8_idempotent_witness :
    MarkerFree moduleC8 ∧
    ((runOnModule collabTriv false (runOnModule collabTriv false moduleC8).module).module =
        (runOnModule collabTriv false moduleC8).module ∧
      (runOnModule collabTriv false (runOnModule collabTriv false moduleC8).module).numInstrumented =
        (runOnModule collabTriv false moduleC8).numInstrumented ∧
      (runOnModule collabTriv false (runOnModule collabTriv false moduleC8).module).emissions =
        (runOnModule collabTriv false moduleC8).emissions ∧
      countMarkers (runOnModule collabTriv false (runOnModule collabTriv false moduleC8).module).module =
        countMarkers (runOnModule collabTriv false moduleC8).module) :=
  ⟨by unfold MarkerFree; decide, claim_C8_idempotent collabTriv false moduleC8 (by unfold MarkerFree; decide)⟩

theorem instrumentBlocks_blocks_mem (c : Collab) (nl : Bool)
    (hi ha : List (Nat × List Nat)) : ∀ (bs : List (List Instr)) (sid : Nat),
    ∀ bb ∈ (instrumentBlocks c nl hi ha bs sid).blocks,
    ∃ b ∈ bs, ∃ k, bb = (instrumentBlock c nl hi ha b k).insts := by
  intro bs
  induction bs with
  | nil => intro sid bb hbb; simp [instrumentBlocks] at hbb
  | cons b rest ih =>
    intro sid bb hbb
    simp only [instrumentBlocks] at hbb
    rcases List.mem_cons.mp hbb with h1 | h1
    · exact ⟨b, List.mem_cons_self b rest, sid, h1⟩
    · obtain ⟨b2, hb2, k, hk⟩ := ih _ bb h1
      exact ⟨b2, List.mem_cons_of_mem b hb2, k, hk⟩

/-- Claim C9: with `-no-live-vals` set, every marker call present in the
instrumented module carries exactly the two scalar arguments (site id
and zero flags word) and no live-value references, and each routine's
emitted site ids still increment from zero, one per instrumented call
site. -/

theorem claim_C9_noLiveVals (c : Collab) (M : PModule) (h : MarkerFree M) :
    (∀ f ∈ (runOnModule c true M).module.funcs, ∀ b ∈ f.blocks, ∀ i ∈ b,
      isMarkerCall i = true →
      ∃ k, i.callArgs = [MarkerArg.idArg k, MarkerArg.flagArg 0]) ∧
    (∀ fe ∈ (runOnModule c true M).emissions,
      fe.2.map Prod.fst = List.range fe.2.length ∧ ∀ e ∈ fe.2, e.2 = []) := by
  have hM1free : MarkerFree (addSMDeclaration M).1 := addSMDeclaration_markerFree h
  have hclean1 : removeOldStackmaps (addSMDeclaration M).1 =
      ((addSMDeclaration M).1, false) := removeOldStackmaps_markerFree _ hM1free
  constructor
  · intro f hf b hb i hi2 hmk
    rw [runOnModule_module, hclean1] at hf
    obtain ⟨f0, hf0, hf0e⟩ := List.mem_map.mp hf
    by_cases hd : f0.isDeclaration = true
    · rw [if_pos hd] at hf0e
      subst hf0e
      rw [hM1free f0 hf0 b hb i hi2] at hmk
      exact Bool.noConfusion hmk
    · rw [if_neg hd] at hf0e
      subst hf0e
      have hb2 : b ∈ (instrumentBlocks c true (getHiddenVals f0).1
          (getHiddenVals f0).2 f0.blocks 0).blocks := hb
      obtain ⟨b0, hb0, k, hbk⟩ :=
        instrumentBlocks_blocks_mem c true _ _ f0.blocks 0 b hb2
      subst hbk
      obtain ⟨k2, lv, hik, hlv⟩ :=
        instrumentBlock_markers_shape c true _ _ b0 k
          (fun j hj => hM1free f0 hf0 b0 hb0 j hj) i hi2 hmk
      subst hik
      refine ⟨k2, ?_⟩
      rw [hlv rfl]
      rfl
  · intro fe hfe
    have he : (runOnModule c true M).emissions =
        ((removeOldStackmaps (addSMDeclaration M).1).1.funcs.map (fun f =>
          if f.isDeclaration then (f, 0, ([] : List (Nat × List Val)))
          else instrumentFunc c true f)).filterMap (fun o =>
            if o.1.isDeclaration then none else some (o.1.fname, o.2.2)) := rfl
    rw [he, hclean1] at hfe
    obtain ⟨o, ho, hsel⟩ := List.mem_filterMap.mp hfe
    obtain ⟨f0, hf0, rfl⟩ := List.mem_map.mp ho
    by_cases hd : f0.isDeclaration = true
    · rw [if_pos hd] at hsel
      simp [hd] at hsel
    · rw [if_neg hd] at hsel
      have h2 : ¬((instrumentFunc c true f0).1.isDeclaration = true) := by
        rw [instrumentFunc_isDecl]; exact hd
      rw [if_neg h2] at hsel
      injection hsel with hsel
      subst hsel
      constructor
      · show ((instrumentBlocks c true (getHiddenVals f0).1
            (getHiddenVals f0).2 f0.blocks 0).emits).map Prod.fst = List.range _
        rw [(instrumentBlocks_emits_ids c true (getHiddenVals f0).1
          (getHiddenVals f0).2 f0.blocks 0).1]
        exact (List.range_eq_range' _).symm
      · intro e hee
        exact instrumentBlocks_noLive_emits c (getHiddenVals f0).1
          (getHiddenVals f0).2 f0.blocks 0 e hee

/-- Witness for C9: a routine with two call sites and a liveness oracle
answering a non-empty set; the option still yields two-argument markers
and ids 0, 1. -/

theorem claim_C9_noLiveVals_witness :
    MarkerFree moduleC9 ∧
    ((∀ f ∈ (runOnModule collabC9 true moduleC9).module.funcs,
        ∀ b ∈ f.blocks, ∀ i ∈ b, isMarkerCall i = true →
        ∃ k, i.callArgs = [MarkerArg.idArg k, MarkerArg.flagArg 0]) ∧
      (∀ fe ∈ (runOnModule collabC9 true moduleC9).emissions,
        fe.2.map Prod.fst = List.range fe.2.length ∧ ∀ e ∈ fe.2, e.2 = [])) :=
  ⟨by unfold MarkerFree; decide,
   claim_C9_noLiveVals collabC9 moduleC9 (by unfold MarkerFree; decide)⟩

theorem valueLt_irrefl (c : Collab) (a : Val) : valueLt c a a = false := by
  unfold valueLt
  by_cases h : c.hasNameV a = true
  · simp [h]
  · simp [h]

theorem valueLt_trans (c : Collab) {a b d : Val} (h1 : valueLt c a b = true)
    (h2 : valueLt c b d = true) : valueLt c a d = true := by
  unfold valueLt at *
  by_cases ha : c.hasNameV a = true <;> by_cases hb : c.hasNameV b = true <;>
    by_cases hd : c.hasNameV d = true <;> simp [ha, hb, hd] at *
  all_goals exact lt_trans h1 h2

theorem valueLt_asymm (c : Collab) {a b : Val} (h : valueLt c a b = true) :
    valueLt c b a = false := by
  unfold valueLt at *
  by_cases ha : c.hasNameV a = true <;> by_cases hb : c.hasNameV b = true <;>
    simp [ha, hb] at *
  all_goals exact le_of_lt h

theorem mem_setInsert_of_mem (lt : Val → Val → Bool) (x : Val) :
    ∀ (s : List Val) (y : Val), y ∈ s → y ∈ setInsert lt x s := by
  intro s
  induction s with
  | nil => intro y hy; cases hy
  | cons z zs ih =>
    intro y hy
    unfold setInsert
    by_cases h1 : lt x z = true
    · rw [if_pos h1]; exact List.mem_cons_of_mem x hy
    · rw [if_neg h1]
      by_cases h2 : lt z x = true
      · rw [if_pos h2]
        rcases List.mem_cons.mp hy with h3 | h3
        · subst h3; exact List.mem_cons_self _ _
        · exact List.mem_cons_of_mem z (ih y h3)
      · rw [if_neg h2]; exact hy

theorem mem_of_mem_setInsert (lt : Val → Val → Bool) (x : Val) :
    ∀ (s : List Val) (y : Val), y ∈ setInsert lt x s → y = x ∨ y ∈ s := by
  intro s
  induction s with
  | nil =>
    intro y hy
    exact Or.inl (List.mem_singleton.mp hy)
  | cons z zs ih =>
    intro y hy
    unfold setInsert at hy
    by_cases h1 : lt x z = true
    · rw [if_pos h1] at hy
      rcases List.mem_cons.mp hy with h3 | h3
      · exact Or.inl h3
      · exact Or.inr h3
    · rw [if_neg h1] at hy
      by_cases h2 : lt z x = true
      · rw [if_pos h2] at hy
        rcases List.mem_cons.mp hy with h3 | h3
        · subst h3; exact Or.inr (List.mem_cons_self _ _)
        · rcases ih y h3 with h4 | h4
          · exact Or.inl h4
          · exact Or.inr (List.mem_cons_of_mem z h4)
      · rw [if_neg h2] at hy
        exact Or.inr hy

theorem self_mem_setInsert (lt : Val → Val → Bool) (x : Val) :
    ∀ (s : List Val), (∀ z ∈ s, z = x ∨ lt x z = true ∨ lt z x = true) →
    x ∈ setInsert lt x s := by
  intro s
  induction s with
  | nil => intro _; exact List.mem_singleton.mpr rfl
  | cons z zs ih =>
    intro hc
    unfold setInsert
    by_cases h1 : lt x z = true
    · rw [if_pos h1]; exact List.mem_cons_self _ _
    · rw [if_neg h1]
      by_cases h2 : lt z x = true
      · rw [if_pos h2]
        exact List.mem_cons_of_mem z
          (ih (fun w hw => hc w (List.mem_cons_of_mem z hw)))
      · rw [if_neg h2]
        rcases hc z (List.mem_cons_self z zs) with h3 | h3 | h3
        · rw [h3]; exact List.mem_cons_self _ _
        · exact absurd h3 h1
        · exact absurd h3 h2

theorem setInsert_pairwise (lt : Val → Val → Bool)
    (htrans : ∀ {a b d : Val}, lt a b = true → lt b d = true → lt a d = true)
    (x : Val) : ∀ (s : List Val),
    s.Pairwise (fun a b => lt a b = true) →
    (setInsert lt x s).Pairwise (fun a b => lt a b = true) := by
  intro s
  induction s with
  | nil => intro _; simp [setInsert]
  | cons z zs ih =>
    intro hp
    rw [List.pairwise_cons] at hp
    obtain ⟨hz, hzs⟩ := hp
    unfold setInsert
    by_cases h1 : lt x z = true
    · rw [if_pos h1, List.pairwise_cons]
      constructor
      · intro w hw
        rcases List.mem_cons.mp hw with h3 | h3
        · subst h3; exact h1
        · exact htrans h1 (hz w h3)
      · rw [List.pairwise_cons]; exact ⟨hz, hzs⟩
    · rw [if_neg h1]
      by_cases h2 : lt z x = true
      · rw [if_pos h2, List.pairwise_cons]
        constructor
        · intro w hw
          rcases mem_of_mem_setInsert lt x zs w hw with h3 | h3
          · subst h3; exact h2
          · exact hz w h3
        · exact ih hzs
      · rw [if_neg h2, List.pairwise_cons]
        exact ⟨hz, hzs⟩

theorem pairwise_lt_nodup (lt : Val → Val → Bool)
    (hirr : ∀ a, lt a a = false) (l : List Val)
    (h : l.Pairwise (fun a b => lt a b = true)) : l.Nodup := by
  apply List.Pairwise.imp ?_ h
  intro a b hab he
  subst he
  rw [hirr a] at hab
  exact Bool.noConfusion hab

theorem mem_foldl_setInsert_of_mem_acc (lt : Val → Val → Bool) :
    ∀ (l acc : List Val) (y : Val), y ∈ acc →
    y ∈ l.foldl (fun s v => setInsert lt v s) acc := by
  intro l
  induction l with
  | nil => intro acc y hy; exact hy
  | cons v vs ih =>
    intro acc y hy
    exact ih _ y (mem_setInsert_of_mem lt v acc y hy)

theorem mem_acc_of_mem_foldl_setInsert (lt : Val → Val → Bool) :
    ∀ (l acc : List Val) (y : Val),
    y ∈ l.foldl (fun s v => setInsert lt v s) acc → y ∈ acc ∨ y ∈ l := by
  intro l
  induction l with
  | nil => intro acc y hy; exact Or.inl hy
  | cons v vs ih =>
    intro acc y hy
    rcases ih _ y hy with h1 | h1
    · rcases mem_of_mem_setInsert lt v acc y h1 with h2 | h2
      · subst h2; exact Or.inr (List.mem_cons_self _ _)
      · exact Or.inl h2
    · exact Or.inr (List.mem_cons_of_mem v h1)

theorem mem_foldl_setInsert (lt : Val → Val → Bool) (l0 : List Val)
    (hcomp : ∀ a ∈ l0, ∀ b ∈ l0, a = b ∨ lt a b = true ∨ lt b a = true) :
    ∀ (l acc : List Val), (∀ z ∈ acc, z ∈ l0) → (∀ z ∈ l, z ∈ l0) →
    ∀ y ∈ l, y ∈ l.foldl (fun s v => setInsert lt v s) acc := by
  intro l
  induction l with
  | nil => intro acc _ _ y hy; cases hy
  | cons v vs ih =>
    intro acc hacc hl y hy
    rcases List.mem_cons.mp hy with h0 | hy2
    · subst h0
      show y ∈ vs.foldl (fun s v => setInsert lt v s) (setInsert lt y acc)
      apply mem_foldl_setInsert_of_mem_acc
      apply self_mem_setInsert
      intro z hz
      rcases hcomp z (hacc z hz) y (hl y (List.mem_cons_self _ _)) with h | h | h
      · exact Or.inl h
      · exact Or.inr (Or.inr h)
      · exact Or.inr (Or.inl h)
    · show y ∈ vs.foldl (fun s v => setInsert lt v s) (setInsert lt v acc)
      apply ih _ ?_ (fun z hz => hl z (List.mem_cons_of_mem v hz)) y hy2
      intro z hz
      rcases mem_of_mem_setInsert lt v acc z hz with h2 | h2
      · subst h2; exact hl z (List.mem_cons_self _ _)
      · exact hacc z h2

theorem foldl_setInsert_pairwise (lt : Val → Val → Bool)
    (htrans : ∀ {a b d : Val}, lt a b = true → lt b d = true → lt a d = true) :
    ∀ (l acc : List Val), acc.Pairwise (fun a b => lt a b = true) →
    (l.foldl (fun s v => setInsert lt v s) acc).Pairwise
      (fun a b => lt a b = true) := by
  intro l
  induction l with
  | nil => intro acc h; exact h
  | cons v vs ih =>
    intro acc h
    exact ih _ (setInsert_pairwise lt (fun h1 h2 => htrans h1 h2) v acc h)

theorem mem_foldl_append_acc {α β : Type} (g : β → Bool) (h : β → List α) :
    ∀ (l : List β) (acc : List α) (v : α), v ∈ acc →
    v ∈ l.foldl (fun a q => if g q then a ++ h q else a) acc := by
  intro l
  induction l with
  | nil => intro acc v hv; exact hv
  | cons q qs ih =>
    intro acc v hv
    show v ∈ qs.foldl _ (if g q then acc ++ h q else acc)
    apply ih
    by_cases hg : g q = true
    · rw [if_pos hg]; exact List.mem_append_left _ hv
    · rw [if_neg hg]; exact hv

theorem mem_foldl_append {α β : Type} (g : β → Bool) (h : β → List α) :
    ∀ (l : List β) (acc : List α) (v : α),
    v ∈ l.foldl (fun a q => if g q then a ++ h q else a) acc →
    v ∈ acc ∨ ∃ p ∈ l, g p = true ∧ v ∈ h p := by
  intro l
  induction l with
  | nil => intro acc v hv; exact Or.inl hv
  | cons q qs ih =>
    intro acc v hv
    rcases ih _ v hv with h1 | ⟨p, hp, hg, hvp⟩
    · have h1 : v ∈ if g q = true then acc ++ h q else acc := h1
      by_cases hg : g q = true
      · rw [if_pos hg] at h1
        rcases List.mem_append.mp h1 with h2 | h2
        · exact Or.inl h2
        · exact Or.inr ⟨q, List.mem_cons_self _ _, hg, h2⟩
      · rw [if_neg hg] at h1
        exact Or.inl h1
    · exact Or.inr ⟨p, List.mem_cons_of_mem q hp, hg, hvp⟩

theorem mem_foldl_append_of {α β : Type} (g : β → Bool) (h : β → List α) :
    ∀ (l : List β) (acc : List α) (p : β), p ∈ l → g p = true →
    ∀ v ∈ h p, v ∈ l.foldl (fun a q => if g q then a ++ h q else a) acc := by
  intro l
  induction l with
  | nil => intro acc p hp; cases hp
  | cons q qs ih =>
    intro acc p hp hg v hv
    rcases List.mem_cons.mp hp with h0 | hp2
    · subst h0
      show v ∈ qs.foldl _ (if g p then acc ++ h p else acc)
      apply mem_foldl_append_acc
      rw [if_pos hg]
      exact List.mem_append_right _ hv
    · exact ih _ p hp2 hg v hv

/-- Claim C10: at an instrumented call site with live-value recording
enabled, every value in the liveness provider's direct answer appears in
the emitted ordered live list — the hidden-value recovery only adds. -/

theorem claim_C10_live_superset (c : Collab) (hi ha : List (Nat × List Nat))
    (callId : Nat)
    (hcomp : PairwiseComparable c (collectedLive c hi ha callId)) :
    ∀ v ∈ c.liveAfter callId, v ∈ sortedLiveFor c hi ha callId := by
  intro v hv
  have hvc : v ∈ collectedLive c hi ha callId := by
    show v ∈ (c.liveAfter callId ++
      hiddenInstContrib c hi callId (c.liveAfter callId)) ++
       hiddenArgContrib c ha (c.liveAfter callId)
    exact List.mem_append_left _ (List.mem_append_left _ hv)
  unfold sortedLiveFor buildSorted
  exact mem_foldl_setInsert (valueLt c) (collectedLive c hi ha callId) hcomp
    (collectedLive c hi ha callId) [] (fun z hz => absurd hz (List.not_mem_nil z))
    (fun z hz => hz) v hvc

/-- Witness for C10 at a concrete two-value liveness answer. -/

theorem claim_C10_live_superset_witness :
    PairwiseComparable collabC10 (collectedLive collabC10 [] [] 0) ∧
    ∀ v ∈ collabC10.liveAfter 0, v ∈ sortedLiveFor collabC10 [] [] 0 :=
  ⟨by unfold PairwiseComparable; decide,
   claim_C10_live_superset collabC10 [] [] 0 (by unfold PairwiseComparable; decide)⟩

/-- Claim C5: assuming SSA well-formedness (every operand's defining
instruction dominates the hiding instruction that uses it) and
transitivity of the dominance oracle: for each argument hiding record
whose hiding instruction's result is live, the hidden parameter is
emitted unconditionally; and every instruction-produced hidden value
actually contributed has a defining instruction that dominates the call.
The code (InsertStackMaps.cpp lines 157-165) tests dominance of the
hiding instruction, which implies dominance of the hidden definition
only through SSA + transitivity. -/

theorem claim_C5_hidden_dominance (c : Collab) (hi ha : List (Nat × List Nat))
    (callId : Nat)
    (hssa : ∀ pr ∈ hi, ∀ pid ∈ pr.2, c.dominates pid pr.1 = true)
    (htrans : ∀ a b d : Nat, c.dominates a b = true → c.dominates b d = true →
      c.dominates a d = true)
    (hcomp : PairwiseComparable c (collectedLive c hi ha callId)) :
    (∀ pr ∈ ha, Val.inst pr.1 ∈ c.liveAfter callId →
      ∀ aid ∈ pr.2, Val.arg aid ∈ sortedLiveFor c hi ha callId) ∧
    (∀ pid : Nat,
      Val.inst pid ∈ hiddenInstContrib c hi callId (c.liveAfter callId) →
      c.dominates pid callId = true) := by
  constructor
  · intro pr hpr hlive aid haid
    have hmem : Val.arg aid ∈ hiddenArgContrib c ha (c.liveAfter callId) := by
      unfold hiddenArgContrib
      exact mem_foldl_append_of (fun p => decide (Val.inst p.1 ∈ c.liveAfter callId))
        (fun p => p.2.map Val.arg) ha [] pr hpr (decide_eq_true hlive)
        (Val.arg aid) (List.mem_map_of_mem Val.arg haid)
    have hvc : Val.arg aid ∈ collectedLive c hi ha callId := by
      show Val.arg aid ∈ (c.liveAfter callId ++
        hiddenInstContrib c hi callId (c.liveAfter callId)) ++
         hiddenArgContrib c ha (c.liveAfter callId)
      exact List.mem_append_right _ hmem
    unfold sortedLiveFor buildSorted
    exact mem_foldl_setInsert (valueLt c) (collectedLive c hi ha callId) hcomp
      (collectedLive c hi ha callId) [] (fun z hz => absurd hz (List.not_mem_nil z))
      (fun z hz => hz) _ hvc
  · intro pid hmem
    unfold hiddenInstContrib at hmem
    rcases mem_foldl_append (fun p => c.dominates p.1 callId &&
        decide (Val.inst p.1 ∈ c.liveAfter callId)) (fun p => p.2.map Val.inst)
        hi [] _ hmem with h1 | ⟨p, hp, hg, hvp⟩
    · cases h1
    · rw [Bool.and_eq_true] at hg
      obtain ⟨hdom, _⟩ := hg
      obtain ⟨pid2, hpid2, hpe⟩ := List.mem_map.mp hvp
      have he2 : pid2 = pid := Val.inst.inj hpe
      subst he2
      exact htrans pid2 p.1 callId (hssa p hp pid2 hpid2) hdom

/-- Witness for C5: one live hiding instruction hiding an instruction
operand and a parameter operand. -/

theorem claim_C5_hidden_dominance_witness :
    (∀ pr ∈ hiC5, ∀ pid ∈ pr.2, collabC5.dominates pid pr.1 = true) ∧
    PairwiseComparable collabC5 (collectedLive collabC5 hiC5 haC5 0) ∧
    ((∀ pr ∈ haC5, Val.inst pr.1 ∈ collabC5.liveAfter 0 →
        ∀ aid ∈ pr.2, Val.arg aid ∈ sortedLiveFor collabC5 hiC5 haC5 0) ∧
      (∀ pid : Nat,
        Val.inst pid ∈ hiddenInstContrib collabC5 hiC5 0 (collabC5.liveAfter 0) →
        collabC5.dominates pid 0 = true)) :=
  ⟨by decide, by unfold PairwiseComparable; decide,
   claim_C5_hidden_dominance collabC5 hiC5 haC5 0 (by decide)
     (fun _ _ _ _ _ => rfl) (by unfold PairwiseComparable; decide)⟩

/-- Claim C7: assuming the collected values are pairwise comparable
under `ValueComp` (no two distinct values share a name or a slot), the
emitted live list is strictly sorted by `ValueComp` (named values first,
lexically; then unnamed values by local slot), named entries precede
unnamed ones, and any permutation of the collected input produces the
identical sequence. -/

theorem claim_C7_deterministic_order (c : Collab) (hi ha : List (Nat × List Nat))
    (callId : Nat)
    (hcomp : PairwiseComparable c (collectedLive c hi ha callId)) :
    (sortedLiveFor c hi ha callId).Pairwise (fun a b => valueLt c a b = true) ∧
    (sortedLiveFor c hi ha callId).Pairwise (fun a b =>
      c.hasNameV b = true → c.hasNameV a = true) ∧
    ∀ l2 : List Val, List.Perm l2 (collectedLive c hi ha callId) →
      buildSorted c l2 = sortedLiveFor c hi ha callId := by
  have hsorted : (sortedLiveFor c hi ha callId).Pairwise
      (fun a b => valueLt c a b = true) := by
    unfold sortedLiveFor buildSorted
    exact foldl_setInsert_pairwise (valueLt c)
      (fun h1 h2 => valueLt_trans c h1 h2) _ [] List.Pairwise.nil
  refine ⟨hsorted, ?_, ?_⟩
  · apply List.Pairwise.imp ?_ hsorted
    intro a b hab hnb
    by_contra hna
    rw [Bool.not_eq_true] at hna
    unfold valueLt at hab
    simp [hna, hnb] at hab
  · intro l2 hperm
    have hcomp2 : ∀ a ∈ l2, ∀ b ∈ l2,
        a = b ∨ valueLt c a b = true ∨ valueLt c b a = true := by
      intro a hal b hbl
      exact hcomp a (hperm.mem_iff.mp hal) b (hperm.mem_iff.mp hbl)
    have hmemiff : ∀ y, y ∈ buildSorted c l2 ↔ y ∈ sortedLiveFor c hi ha callId := by
      intro y
      constructor
      · intro hy
        have hy2 : y ∈ l2 := by
          rcases mem_acc_of_mem_foldl_setInsert (valueLt c) l2 [] y hy with h | h
          · cases h
          · exact h
        have hyc : y ∈ collectedLive c hi ha callId := hperm.mem_iff.mp hy2
        unfold sortedLiveFor buildSorted
        exact mem_foldl_setInsert (valueLt c) (collectedLive c hi ha callId) hcomp
          (collectedLive c hi ha callId) []
          (fun z hz => absurd hz (List.not_mem_nil z)) (fun z hz => hz) y hyc
      · intro hy
        have hyc : y ∈ collectedLive c hi ha callId := by
          rcases mem_acc_of_mem_foldl_setInsert (valueLt c)
            (collectedLive c hi ha callId) [] y hy with h | h
          · cases h
          · exact h
        have hy2 : y ∈ l2 := hperm.mem_iff.mpr hyc
        exact mem_foldl_setInsert (valueLt c) l2 hcomp2 l2 []
          (fun z hz => absurd hz (List.not_mem_nil z)) (fun z hz => hz) y hy2
    have hs2 : (buildSorted c l2).Pairwise (fun a b => valueLt c a b = true) := by
      unfold buildSorted
      exact foldl_setInsert_pairwise (valueLt c)
        (fun h1 h2 => valueLt_trans c h1 h2) l2 [] List.Pairwise.nil
    have hnd1 : (buildSorted c l2).Nodup :=
      pairwise_lt_nodup (valueLt c) (valueLt_irrefl c) _ hs2
    have hnd2 : (sortedLiveFor c hi ha callId).Nodup :=
      pairwise_lt_nodup (valueLt c) (valueLt_irrefl c) _ hsorted
    have hperm2 : List.Perm (buildSorted c l2) (sortedLiveFor c hi ha callId) :=
      (List.perm_ext_iff_of_nodup hnd1 hnd2).mpr hmemiff
    haveI : IsAntisymm Val (fun a b => valueLt c a b = true) :=
      ⟨fun _ _ h1 h2 => Bool.noConfusion ((valueLt_asymm c h1).symm.trans h2)⟩
    exact List.eq_of_perm_of_sorted hperm2 hs2 hsorted

/-- Witness for C7: one named parameter and two unnamed instruction
results arriving out of slot order. -/

theorem claim_C7_deterministic_order_witness :
    PairwiseComparable collabC7 (collectedLive collabC7 [] [] 0) ∧
    ((sortedLiveFor collabC7 [] [] 0).Pairwise
        (fun a b => valueLt collabC7 a b = true) ∧
      (sortedLiveFor collabC7 [] [] 0).Pairwise (fun a b =>
        collabC7.hasNameV b = true → collabC7.hasNameV a = true) ∧
      ∀ l2 : List Val, List.Perm l2 (collectedLive collabC7 [] [] 0) →
        buildSorted collabC7 l2 = sortedLiveFor collabC7 [] [] 0) :=
  ⟨by unfold PairwiseComparable; decide,
   claim_C7_deterministic_order collabC7 [] [] 0
     (by unfold PairwiseComparable; decide)⟩
